import Mathlib

/-!
Verification development for the silverbullet-rag engine tier.

Shallow embedding of the source modules:
  * `src/server/parser/space_parser.py`  (markdown parser / chunking)
  * `src/server/db/graph.py`            (graph store: schema, indexing, deletion, BM25)
  * `src/server/search.py`              (hybrid search / RRF fusion)
  * `src/server/watcher.py`             (incremental watcher)
  * `src/server/config_parser.py`       (CONFIG.md tracker)

Modelling conventions:
  * Python floats are idealised as `ℚ`; the transcendental `math.log` from the
    standard library is treated as an opaque parameter `lg : ℚ → ℚ` passed to
    the functions that call it (the repository never inspects log values, it
    only feeds them into arithmetic).
  * Python strings are idealised as ASCII `String`s; `str.lower` and the
    `\w` / whitespace character classes use their ASCII meaning.
  * Library boundaries (markdown-it tokenisation, YAML decoding, the Lua AST
    parser, md5, the filesystem, the HNSW vector index) enter the model as
    explicit inputs of the embedded functions.
  * The graph database is modelled as explicit finite node/edge lists with
    Cypher `MERGE` = insert-if-absent (update in place for keyed nodes) and
    `DETACH DELETE` = remove node rows plus all incident edges.
-/

/-! ## String utilities (ASCII idealisation of the Python string operations) -/

/-- ASCII lower-casing of one character (`str.lower`). -/
def lowerChar (c : Char) : Char :=
  if 65 ≤ c.toNat ∧ c.toNat ≤ 90 then Char.ofNat (c.toNat + 32) else c

/-- ASCII lower-casing of a string (`str.lower`). -/
def lowerStr (s : String) : String := String.mk (s.data.map lowerChar)

/-- `p` is a prefix of `s` (character lists). -/
def isPrefixL : List Char → List Char → Bool
  | [], _ => true
  | _ :: _, [] => false
  | a :: p, b :: s => a = b && isPrefixL p s

/-- `pat` occurs as a contiguous substring of `s` (Cypher `CONTAINS`, Python `in`). -/
def containsL (pat : List Char) : List Char → Bool
  | [] => isPrefixL pat []
  | c :: rest => isPrefixL pat (c :: rest) || containsL pat rest

/-- String wrapper: `s` contains `pat` as a substring. -/
def strContains (s pat : String) : Bool := containsL pat.data s.data

/-- `s` starts with `pat` (Cypher `STARTS WITH`). -/
def strStarts (s pat : String) : Bool := isPrefixL pat.data s.data

/-- `s` ends with `pat` (Python `str.endswith`). -/
def strEnds (s pat : String) : Bool := isPrefixL pat.data.reverse s.data.reverse

/-- Fuel-driven non-overlapping occurrence count, scanning left to right. -/
def countOccAux (pat : List Char) : Nat → List Char → Nat
  | 0, _ => 0
  | _ + 1, [] => 0
  | fuel + 1, c :: rest =>
    if isPrefixL pat (c :: rest) then
      1 + countOccAux pat fuel (rest.drop (pat.length - 1))
    else
      countOccAux pat fuel rest

/-- Python `s.count(pat)`: non-overlapping occurrences; empty pattern counts `len+1`. -/
def strCount (s pat : String) : Nat :=
  if pat.data.isEmpty then s.data.length + 1
  else countOccAux pat.data s.data.length s.data

/-- ASCII whitespace (idealisation of Python `str.split()` separators). -/
def isWsChar (c : Char) : Bool := c = ' ' ∨ c = '\t' ∨ c = '\n' ∨ c = '\r'

/-- Worker for `splitWs`: `cur` holds the current word reversed. -/
def splitWsGo (cur : List Char) : List Char → List String
  | [] => if cur.isEmpty then [] else [String.mk cur.reverse]
  | c :: rest =>
    if isWsChar c then
      if cur.isEmpty then splitWsGo [] rest
      else String.mk cur.reverse :: splitWsGo [] rest
    else splitWsGo (c :: cur) rest

/-- Python `str.split()`: split on whitespace runs, dropping empty pieces. -/
def splitWs (s : String) : List String := splitWsGo [] s.data

/-- Python `str.strip()` (ASCII whitespace). -/
def stripStr (s : String) : String :=
  String.mk (((s.data.dropWhile isWsChar).reverse.dropWhile isWsChar).reverse)

/-- `"\n".join(parts)`. -/
def joinNL (parts : List String) : String := String.intercalate "\n" parts

/-- Regex `\w`: ASCII word character. -/
def isWordChar (c : Char) : Bool := c.isAlpha || c.isDigit || c = '_'

/-- First character of an identifier in the inline-attribute regex: `[A-Za-z_]`. -/
def isIdentStart (c : Char) : Bool := c.isAlpha || c = '_'

/-- Association-list lookup (models Python `dict` access; keys are unique). -/
def alLookup {α : Type} (l : List (String × α)) (k : String) : Option α :=
  (l.find? (fun p => p.1 = k)).map (fun p => p.2)

/-! ## Markdown extraction scanners

Hand-rolled deterministic scanners for the compiled regexes of
`SpaceParser.__init__`.  Each mirrors `re.finditer` semantics: leftmost
non-overlapping matches, advancing one character on failure. -/

/-- Hashtag scanner for `(?<![`/])#(\w+)` (`tag_pattern`).  `prev` is the
character preceding the scan position (`none` at the start of the string). -/
def scanTagsAux : Nat → Option Char → List Char → List String
  | 0, _, _ => []
  | _ + 1, _, [] => []
  | fuel + 1, prev, c :: rest =>
    if c = '#' ∧ prev ≠ some '`' ∧ prev ≠ some '/' then
      let w := rest.takeWhile isWordChar
      if w.isEmpty then scanTagsAux fuel (some c) rest
      else String.mk w :: scanTagsAux fuel (some (w.getLastD c)) (rest.drop w.length)
    else scanTagsAux fuel (some c) rest

/-- `tag_pattern.findall(content)`. -/
def scanTags (s : String) : List String := scanTagsAux (s.data.length + 1) none s.data

/-- Wikilink scanner for `\[\[([^\]]+)\]\]` (`link_pattern`). -/
def scanLinksAux : Nat → List Char → List String
  | 0, _ => []
  | _ + 1, [] => []
  | fuel + 1, c :: rest =>
    if c = '[' ∧ isPrefixL ['['] rest then
      let inner := (rest.drop 1).takeWhile (fun d => d ≠ ']')
      let after := (rest.drop 1).drop inner.length
      if ¬ inner.isEmpty ∧ isPrefixL [']', ']'] after then
        String.mk inner :: scanLinksAux fuel (after.drop 2)
      else scanLinksAux fuel rest
    else scanLinksAux fuel rest

/-- `link_pattern.findall(content)`. -/
def scanLinks (s : String) : List String := scanLinksAux (s.data.length + 1) s.data

/-- Transclusion scanner for `!\[\[([^\]#]+)(?:#([^\]]+))?\]\]`
(`transclusion_pattern`); yields (target page, optional section header). -/
def scanTransAux : Nat → List Char → List (String × Option String)
  | 0, _ => []
  | _ + 1, [] => []
  | fuel + 1, c :: rest =>
    if c = '!' ∧ isPrefixL ['[', '['] rest then
      let body := rest.drop 2
      let page := body.takeWhile (fun d => d ≠ ']' ∧ d ≠ '#')
      let after := body.drop page.length
      if page.isEmpty then scanTransAux fuel rest
      else if isPrefixL [']', ']'] after then
        (String.mk page, none) :: scanTransAux fuel (after.drop 2)
      else if isPrefixL ['#'] after then
        let hdr := (after.drop 1).takeWhile (fun d => d ≠ ']')
        let after2 := (after.drop 1).drop hdr.length
        if ¬ hdr.isEmpty ∧ isPrefixL [']', ']'] after2 then
          (String.mk page, some (String.mk hdr)) :: scanTransAux fuel (after2.drop 2)
        else scanTransAux fuel rest
      else scanTransAux fuel rest
    else scanTransAux fuel rest

/-- `transclusion_pattern.finditer(content)` captures. -/
def scanTrans (s : String) : List (String × Option String) :=
  scanTransAux (s.data.length + 1) s.data

/-- Inline-attribute scanner for `(?<!!)\[([a-zA-Z_][a-zA-Z0-9_]*)\s*:\s*([^\]]+)\]`
(`inline_attr_pattern`); yields raw (name, value) captures. -/
def scanAttrsAux : Nat → Option Char → List Char → List (String × String)
  | 0, _, _ => []
  | _ + 1, _, [] => []
  | fuel + 1, prev, c :: rest =>
    if c = '[' ∧ prev ≠ some '!' then
      let nm := rest.takeWhile isWordChar
      let afterNm := (rest.drop nm.length).dropWhile isWsChar
      if ¬ nm.isEmpty ∧ isIdentStart (nm.headD ' ') ∧ isPrefixL [':'] afterNm then
        let afterColon := (afterNm.drop 1).dropWhile isWsChar
        let v := afterColon.takeWhile (fun d => d ≠ ']')
        if ¬ v.isEmpty ∧ isPrefixL [']'] (afterColon.drop v.length) then
          (String.mk nm, String.mk v) ::
            scanAttrsAux fuel (some ']') ((afterColon.drop v.length).drop 1)
        else scanAttrsAux fuel (some c) rest
      else scanAttrsAux fuel (some c) rest
    else scanAttrsAux fuel (some c) rest

/-- `inline_attr_pattern.finditer(content)` captures. -/
def scanAttrs (s : String) : List (String × String) :=
  scanAttrsAux (s.data.length + 1) none s.data

/-! ## Parser data model (`space_parser.py` dataclasses) -/

/-- A YAML frontmatter value, restricted to the shapes the parser inspects
(`tags` may be a string or a list of strings; anything else is opaque). -/
inductive FMVal : Type
  | s : String → FMVal
  | list : List String → FMVal
  | other : FMVal
deriving Repr, DecidableEq

/-- Decoded YAML frontmatter (`dict` idealised as an association list). -/
abbrev FM : Type := List (String × FMVal)

/-- `Transclusion` dataclass. -/
structure PTransclusion : Type where
  target_page : String
  target_header : Option String
deriving Repr, DecidableEq

/-- `InlineAttribute` dataclass. -/
structure PInlineAttr : Type where
  name : String
  value : String
deriving Repr, DecidableEq

/-- `DataBlock` dataclass; the YAML payload `data` is idealised as string
key/value pairs (the engine only ever re-serialises it). -/
structure PDataBlock : Type where
  tag : String
  data : List (String × String)
  file_path : String
deriving Repr, DecidableEq

/-- `Chunk` dataclass. -/
structure PChunk : Type where
  file_path : String
  header : String
  content : String
  links : List String
  tags : List String
  folder_path : String
  frontmatter : FM
  transclusions : List PTransclusion
  inline_attributes : List PInlineAttr
  data_blocks : List PDataBlock
deriving Repr, DecidableEq

/-- `frontmatter.get("tags", [])` normalised as in `_create_chunk`:
a string becomes a one-element list, a list is kept, anything else is `[]`. -/
def fmTagsNorm (fm : FM) : List String :=
  match alLookup fm "tags" with
  | some (FMVal.s v) => [v]
  | some (FMVal.list l) => l
  | _ => []

/-- `frontmatter.get("tags", [])` as used for the data-block-only chunk in
`_parse_file`: only a genuine list is accepted (a string yields `[]`). -/
def fmTagsListOnly (fm : FM) : List String :=
  match alLookup fm "tags" with
  | some (FMVal.list l) => l
  | _ => []

/-- `Path(file_path).stem`: last path component minus its final suffix. -/
def stemOf (fp : String) : String :=
  let name := (fp.data.foldl
    (fun acc c => if c = '/' then [] else acc ++ [c]) ([] : List Char))
  match List.findIdx? (fun c => c = '.') name.reverse with
  | none => String.mk name
  | some i =>
    if i + 1 = name.length then String.mk name
    else String.mk (name.take (name.length - i - 1))

/-- `SpaceParser._create_chunk`: build a chunk with extracted links, tags
(content hashtags first, then deduplicated frontmatter tags), transclusions
(from `raw_content` when non-empty, else from `content`) and inline
attributes (name and value stripped).  Data blocks are attached later. -/
def createChunk (fp header content folder : String) (fm : FM) (raw : String) : PChunk :=
  let links := scanLinks content
  let contentTags := scanTags content
  let allTags := (fmTagsNorm fm).foldl
    (fun acc t => if t ≠ "" ∧ t ∉ acc then acc ++ [t] else acc) contentTags
  let transSource := if raw ≠ "" then raw else content
  let trans := (scanTrans transSource).map
    (fun p => PTransclusion.mk (stripStr p.1) (p.2.map stripStr))
  let attrs := (scanAttrs content).map
    (fun p => PInlineAttr.mk (stripStr p.1) (stripStr p.2))
  PChunk.mk fp header content links allTags folder fm trans attrs []

/-! ## Markdown-it token walk (`SpaceParser._parse_file`)

`md.parse` (the markdown-it library) is a boundary: its token stream is an
input of the embedded function.  Only the fields the walk inspects are
modelled. -/

/-- One markdown-it token: its `type`, `tag` and `content` fields. -/
structure MDToken : Type where
  ttype : String
  tag : String
  content : String
deriving Repr, DecidableEq

/-- Flush the accumulated content lines into a chunk, as in `_parse_file`:
nothing is produced when the accumulator is empty or strips to `""`. -/
def flushChunk (fp header folder : String) (fm : FM) (raw : String)
    (content : List String) : List PChunk :=
  if content = [] then []
  else
    let chunkText := stripStr (joinNL content)
    if chunkText = "" then []
    else [createChunk fp header chunkText folder fm raw]

/-- The token loop of `_parse_file`.  `hasHeading` caches the test
`[t for t in tokens if t.type == "heading_open"]` (evaluated on the whole
token list, so it is constant across the loop); when it holds, every
non-empty inline token overwrites `current_header`. -/
def chunksWalk (fp folder : String) (fm : FM) (raw : String) (hasHeading : Bool) :
    String → List String → List MDToken → List PChunk
  | header, content, [] => flushChunk fp header folder fm raw content
  | header, content, t :: rest =>
    if t.ttype = "heading_open" ∧ t.tag = "h2" then
      flushChunk fp header folder fm raw content ++
        chunksWalk fp folder fm raw hasHeading header [] rest
    else if t.ttype = "inline" then
      if t.content ≠ "" then
        let header2 := if hasHeading then t.content else header
        chunksWalk fp folder fm raw hasHeading header2 (content ++ [t.content]) rest
      else chunksWalk fp folder fm raw hasHeading header content rest
    else if t.ttype = "paragraph_open" ∨ t.ttype = "list_item_open" ∨
        t.ttype = "blockquote_open" then
      chunksWalk fp folder fm raw hasHeading header content rest
    else if t.content ≠ "" then
      chunksWalk fp folder fm raw hasHeading header (content ++ [t.content]) rest
    else chunksWalk fp folder fm raw hasHeading header content rest

/-- The data-block-only chunk created at the end of `_parse_file` when the
walk produced no chunks but file-level data blocks exist. -/
def dataOnlyChunk (fp folder : String) (fm : FM) (fdbs : List PDataBlock) : PChunk :=
  PChunk.mk fp (stemOf fp) "" [] (fmTagsListOnly fm) folder fm [] [] fdbs

/-- `SpaceParser._parse_file` after frontmatter stripping and transclusion
expansion.  Inputs at the library boundary: `tokens` is `md.parse(raw)`, and
`fdbs` is `_extract_data_blocks(raw_before_expansion, fp)` (the regex match
gated by `yaml.safe_load`).  The walk starts with `current_header` equal to
the filename stem; file-level data blocks are attached to the first chunk,
or to a synthetic empty chunk when there is no chunk at all. -/
def parseFileModel (fp folder : String) (fm : FM) (raw : String)
    (tokens : List MDToken) (fdbs : List PDataBlock) : List PChunk :=
  let hasHeading := tokens.any (fun t => t.ttype = "heading_open")
  let base := chunksWalk fp folder fm raw hasHeading (stemOf fp) [] tokens
  match base with
  | [] => if fdbs ≠ [] then [dataOnlyChunk fp folder fm fdbs] else []
  | c :: rest =>
    { c with data_blocks := c.data_blocks ++ fdbs } :: rest

/-! ## Graph store data model (`graph.py`)

Node and edge tables from `GraphDB._init_schema`, as explicit lists.
`MERGE` on a keyed node updates the existing row in place (Cypher `SET`) or
appends a fresh row; `MERGE` on an edge inserts the pair when absent. -/

/-- A `Chunk` node row (`CREATE NODE TABLE Chunk(...)`); `embedding` is
`none` when embeddings are disabled. -/
structure ChunkRow : Type where
  id : String
  file_path : String
  header : String
  content : String
  frontmatter : String
  embedding : Option (List ℚ)
deriving Repr, DecidableEq

/-- A `Folder` node row. -/
structure FolderRow : Type where
  name : String
  path : String
  has_index_page : Bool
deriving Repr, DecidableEq

/-- An `Attribute` node row. -/
structure AttrRow : Type where
  id : String
  name : String
  value : String
deriving Repr, DecidableEq

/-- A `DataBlock` node row. -/
structure DataRow : Type where
  id : String
  tag : String
  data : String
  file_path : String
deriving Repr, DecidableEq

/-- The whole graph store: node rows plus directed edge lists.  Pages and
tags are identified by their primary-key `name`.  `embeds` carries the
`header` edge property.  The schema of `_init_schema` has no `HAS_CHUNK`
and no `PAGE_LINKS_TO` table; see `schemaRelTables`. -/
structure GraphState : Type where
  chunks : List ChunkRow
  pages : List String
  tags : List String
  folders : List FolderRow
  attrs : List AttrRow
  dataBlocks : List DataRow
  linksTo : List (String × String)
  tagged : List (String × String)
  containsF : List (String × String)
  folderContainsPage : List (String × String)
  inFolder : List (String × String)
  embeds : List (String × String × String)
  hasAttribute : List (String × String)
  hasDataBlock : List (String × String)
  dataTagged : List (String × String)
deriving Repr, DecidableEq

/-- The empty store, right after `_init_schema` on a fresh database. -/
def graphEmpty : GraphState :=
  GraphState.mk [] [] [] [] [] [] [] [] [] [] [] [] [] [] []

/-- The relationship tables created by `_init_schema` (in creation order). -/
def schemaRelTables : List String :=
  ["LINKS_TO", "TAGGED", "CONTAINS", "FOLDER_CONTAINS_PAGE", "IN_FOLDER",
   "EMBEDS", "HAS_ATTRIBUTE", "HAS_DATA_BLOCK", "DATA_TAGGED"]

/-- `MERGE (c:Chunk {id: ...}) SET ...`: update the keyed row or insert it. -/
def mergeChunkRow (st : GraphState) (row : ChunkRow) : GraphState :=
  if st.chunks.any (fun r => r.id = row.id) then
    { st with chunks := st.chunks.map (fun r => if r.id = row.id then row else r) }
  else { st with chunks := st.chunks ++ [row] }

/-- `MERGE (p:Page {name: ...})`. -/
def mergePage (st : GraphState) (name : String) : GraphState :=
  if name ∈ st.pages then st else { st with pages := st.pages ++ [name] }

/-- `MERGE (t:Tag {name: ...})`. -/
def mergeTag (st : GraphState) (name : String) : GraphState :=
  if name ∈ st.tags then st else { st with tags := st.tags ++ [name] }

/-- `MERGE (a:Attribute {id: ...}) SET ...`. -/
def mergeAttrRow (st : GraphState) (row : AttrRow) : GraphState :=
  if st.attrs.any (fun r => r.id = row.id) then
    { st with attrs := st.attrs.map (fun r => if r.id = row.id then row else r) }
  else { st with attrs := st.attrs ++ [row] }

/-- `MERGE (d:DataBlock {id: ...}) SET ...`. -/
def mergeDataRow (st : GraphState) (row : DataRow) : GraphState :=
  if st.dataBlocks.any (fun r => r.id = row.id) then
    { st with dataBlocks :=
        st.dataBlocks.map (fun r => if r.id = row.id then row else r) }
  else { st with dataBlocks := st.dataBlocks ++ [row] }

/-- `MERGE` of an edge: insert the pair when not already present. -/
def mergePair (edges : List (String × String)) (e : String × String) :
    List (String × String) :=
  if e ∈ edges then edges else edges ++ [e]

/-- `MERGE (c)-[:EMBEDS {header: ...}]->(p)`: merge on the full pattern,
header property included. -/
def mergeEmbedsEdge (edges : List (String × String × String))
    (e : String × String × String) : List (String × String × String) :=
  if e ∈ edges then edges else edges ++ [e]

/-- Minimal deterministic stand-in for `json.dumps` on a frontmatter value
(string escaping elided; the engine never decodes these blobs). -/
def encodeFMVal : FMVal → String
  | FMVal.s v => "\"" ++ v ++ "\""
  | FMVal.list l => "[" ++ String.intercalate ", " (l.map (fun v => "\"" ++ v ++ "\"")) ++ "]"
  | FMVal.other => "null"

/-- `json.dumps(chunk.frontmatter, cls=DateTimeEncoder)` idealised. -/
def fmSerialize (fm : FM) : String :=
  "\x7b" ++ String.intercalate ", "
    (fm.map (fun p => "\"" ++ p.1 ++ "\": " ++ encodeFMVal p.2)) ++ "\x7d"

/-- `json.dumps(data_block.data, cls=DateTimeEncoder)` idealised. -/
def dataSerialize (d : List (String × String)) : String :=
  "\x7b" ++ String.intercalate ", "
    (d.map (fun p => "\"" ++ p.1 ++ "\": \"" ++ p.2 ++ "\"")) ++ "\x7d"

/-- The chunk-node primary key built in `index_chunks`:
`chunk_id = f"{chunk.file_path}#{chunk.header}"`. -/
def chunkIdOf (c : PChunk) : String := c.file_path ++ "#" ++ c.header

/-- The DataBlock primary key built in `index_chunks`:
`block_id = f"{chunk_id}#datablock#{idx}"`. -/
def blockIdOf (chunkId : String) (idx : Nat) : String :=
  chunkId ++ "#datablock#" ++ toString idx

/-- Wikilink loop body of `index_chunks`: merge the target Page and the
`LINKS_TO` edge. -/
def idxLink (cid : String) (s : GraphState) (link : String) : GraphState :=
  let s2 := mergePage s link
  { s2 with linksTo := mergePair s2.linksTo (cid, link) }

/-- Tag loop body of `index_chunks`: merge the Tag node and the `TAGGED`
edge. -/
def idxTag (cid : String) (s : GraphState) (tag : String) : GraphState :=
  let s2 := mergeTag s tag
  { s2 with tagged := mergePair s2.tagged (cid, tag) }

/-- Transclusion loop body of `index_chunks`: merge the target Page and the
`EMBEDS` edge (header property, empty for a whole-page transclusion). -/
def idxTrans (cid : String) (s : GraphState) (tr : PTransclusion) : GraphState :=
  let s2 := mergePage s tr.target_page
  { s2 with embeds :=
      mergeEmbedsEdge s2.embeds (cid, tr.target_page, tr.target_header.getD "") }

/-- Inline-attribute loop body of `index_chunks`. -/
def idxAttr (cid : String) (s : GraphState) (attr : PInlineAttr) : GraphState :=
  let aid := cid ++ "#" ++ attr.name
  let s2 := mergeAttrRow s (AttrRow.mk aid attr.name attr.value)
  { s2 with hasAttribute := mergePair s2.hasAttribute (cid, aid) }

/-- Data-block loop body of `index_chunks` (enumerated index `ib.1`):
merge the DataBlock node, the `HAS_DATA_BLOCK` edge, the Tag node and the
`DATA_TAGGED` edge. -/
def idxBlock (cid : String) (s : GraphState) (ib : Nat × PDataBlock) : GraphState :=
  let bid := blockIdOf cid ib.1
  let s2 := mergeDataRow s
    (DataRow.mk bid ib.2.tag (dataSerialize ib.2.data) ib.2.file_path)
  let s3 := { s2 with hasDataBlock := mergePair s2.hasDataBlock (cid, bid) }
  let s4 := mergeTag s3 ib.2.tag
  { s4 with dataTagged := mergePair s4.dataTagged (bid, ib.2.tag) }

/-- The body of the per-chunk loop of `GraphDB.index_chunks` for the chunk at
batch position `i`.  `emb` is the batch embedding list returned by the
embedding service (a boundary input; `[]` when embeddings are disabled). -/
def indexOneChunk (enableEmb : Bool) (emb : List (List ℚ)) (st : GraphState)
    (i : Nat) (chunk : PChunk) : GraphState :=
  let cid := chunkIdOf chunk
  let fmJson := if chunk.frontmatter ≠ [] then fmSerialize chunk.frontmatter
    else "\x7b\x7d"
  let eVec := if enableEmb ∧ emb ≠ [] then emb.get? i else none
  let st1 := mergeChunkRow st
    (ChunkRow.mk cid chunk.file_path chunk.header chunk.content fmJson eVec)
  let st2 := chunk.links.foldl (idxLink cid) st1
  let st3 := chunk.tags.foldl (idxTag cid) st2
  let st4 :=
    if chunk.folder_path ≠ "" ∧ st3.folders.any (fun f => f.path = chunk.folder_path)
    then { st3 with inFolder := mergePair st3.inFolder (cid, chunk.folder_path) }
    else st3
  let st5 := chunk.transclusions.foldl (idxTrans cid) st4
  let st6 := chunk.inline_attributes.foldl (idxAttr cid) st5
  (chunk.data_blocks.enum).foldl (idxBlock cid) st6

/-- `GraphDB.index_chunks(chunks)`: the per-chunk loop over the batch.
Creates chunk nodes and the link/tag/folder/transclusion/attribute/data-block
structure.  (It creates no Page node for the source file itself, and the
schema has no `HAS_CHUNK` or `PAGE_LINKS_TO` table.) -/
def indexChunks (enableEmb : Bool) (emb : List (List ℚ)) (st : GraphState)
    (chunks : List PChunk) : GraphState :=
  (chunks.enum).foldl (fun s ic => indexOneChunk enableEmb emb s ic.1 ic.2) st

/-- A tag node has an incoming `TAGGED` or `DATA_TAGGED` edge. -/
def tagHasIncoming (st : GraphState) (t : String) : Bool :=
  st.tagged.any (fun e => e.2 = t) || st.dataTagged.any (fun e => e.2 = t)

/-- A page node has an incoming `LINKS_TO` or `EMBEDS` edge. -/
def pageHasIncoming (st : GraphState) (p : String) : Bool :=
  st.linksTo.any (fun e => e.2 = p) || st.embeds.any (fun e => e.2.1 = p)

/-- `GraphDB.delete_chunks_by_file(file_path)`: detach-delete the file's
chunks, then one orphan-cleanup pass per class, in source order
(tags, pages, attributes, data blocks).  Each pass evaluates its `WHERE`
condition against the state left by the previous pass and detach-deletes
all rows matching it at once. -/
def deleteChunksByFile (st : GraphState) (fp : String) : GraphState :=
  -- MATCH (c:Chunk {file_path: $file_path}) DETACH DELETE c
  let dead := (st.chunks.filter (fun c => c.file_path = fp)).map (fun c => c.id)
  let st1 : GraphState :=
    { st with
      chunks := st.chunks.filter (fun c => ¬ c.file_path = fp)
      linksTo := st.linksTo.filter (fun e => e.1 ∉ dead)
      tagged := st.tagged.filter (fun e => e.1 ∉ dead)
      inFolder := st.inFolder.filter (fun e => e.1 ∉ dead)
      embeds := st.embeds.filter (fun e => e.1 ∉ dead)
      hasAttribute := st.hasAttribute.filter (fun e => e.1 ∉ dead)
      hasDataBlock := st.hasDataBlock.filter (fun e => e.1 ∉ dead) }
  -- Tag pass: WHERE NOT (t)<-[:TAGGED]-() AND NOT (t)<-[:DATA_TAGGED]-()
  let deadTags := st1.tags.filter (fun t => ¬ tagHasIncoming st1 t)
  let st2 : GraphState :=
    { st1 with
      tags := st1.tags.filter (fun t => t ∉ deadTags)
      tagged := st1.tagged.filter (fun e => e.2 ∉ deadTags)
      dataTagged := st1.dataTagged.filter (fun e => e.2 ∉ deadTags) }
  -- Page pass: WHERE NOT (p)<-[:LINKS_TO]-() AND NOT (p)<-[:EMBEDS]-()
  let deadPages := st2.pages.filter (fun p => ¬ pageHasIncoming st2 p)
  let st3 : GraphState :=
    { st2 with
      pages := st2.pages.filter (fun p => p ∉ deadPages)
      linksTo := st2.linksTo.filter (fun e => e.2 ∉ deadPages)
      embeds := st2.embeds.filter (fun e => e.2.1 ∉ deadPages)
      folderContainsPage := st2.folderContainsPage.filter (fun e => e.2 ∉ deadPages) }
  -- Attribute pass: WHERE NOT (a)<-[:HAS_ATTRIBUTE]-()
  let deadAttrs := (st3.attrs.filter
    (fun a => ¬ st3.hasAttribute.any (fun e => e.2 = a.id))).map (fun a => a.id)
  let st4 : GraphState :=
    { st3 with
      attrs := st3.attrs.filter (fun a => a.id ∉ deadAttrs)
      hasAttribute := st3.hasAttribute.filter (fun e => e.2 ∉ deadAttrs) }
  -- DataBlock pass: WHERE NOT (d)<-[:HAS_DATA_BLOCK]-()
  let deadBlocks := (st4.dataBlocks.filter
    (fun d => ¬ st4.hasDataBlock.any (fun e => e.2 = d.id))).map (fun d => d.id)
  { st4 with
    dataBlocks := st4.dataBlocks.filter (fun d => d.id ∉ deadBlocks)
    hasDataBlock := st4.hasDataBlock.filter (fun e => e.2 ∉ deadBlocks)
    dataTagged := st4.dataTagged.filter (fun e => e.1 ∉ deadBlocks) }

/-! ## BM25 keyword search (`GraphDB.keyword_search`) -/

/-- Python `round(x, 4)` idealised over `ℚ` (ties use `round`'s convention). -/
def roundTo4 (x : ℚ) : ℚ := (round (x * 10000) : ℚ) / 10000

/-- Stable insertion step, descending by `key` (ties keep earlier first). -/
def insertByDesc {α : Type} (key : α → ℚ) (x : α) : List α → List α
  | [] => [x]
  | y :: ys => if key y ≤ key x then x :: y :: ys else y :: insertByDesc key x ys

/-- Stable sort, descending by `key`: Python `list.sort(key=..., reverse=True)`. -/
def sortByDesc {α : Type} (key : α → ℚ) : List α → List α
  | [] => []
  | x :: xs => insertByDesc key x (sortByDesc key xs)

/-- One scored result row: `{"col0": chunk, "bm25_score": ...}`. -/
structure KWRow : Type where
  col0 : ChunkRow
  bm25_score : ℚ
deriving Repr, DecidableEq

/-- The `technical_terms` boost set of `keyword_search`. -/
def technicalTerms : List String :=
  ["sql", "nosql", "api", "rest", "graphql", "json", "xml", "index", "indexes",
   "query", "queries", "schema", "migration", "optimization", "performance",
   "cache", "caching", "async", "database", "db", "repository", "orm",
   "transaction"]

/-- The scope condition `f.path = $scope OR f.path STARTS WITH $scope_prefix`
(with `scope_prefix = scope + "/")`. -/
def inScopeFolder (scope fpath : String) : Bool :=
  fpath = scope ∨ strStarts fpath (scope ++ "/")

/-- Number of Cypher rows produced for chunk `c` by the pattern
`(c)-[:IN_FOLDER]->(f:Folder)` with the scope condition on `f`
(one row per matching edge/folder-row pair). -/
def scopedMatchCount (st : GraphState) (scope : String) (c : ChunkRow) : Nat :=
  (st.inFolder.filter (fun e => e.1 = c.id)).foldl
    (fun n e =>
      n + (st.folders.filter (fun f => f.path = e.2 ∧ inScopeFolder scope f.path)).length)
    0

/-- The `total_docs` count: all chunks when unscoped, otherwise the row count
of the scoped `MATCH (c:Chunk)-[:IN_FOLDER]->(f:Folder)` query. -/
def totalDocs (st : GraphState) (scope : Option String) : Nat :=
  match scope with
  | none => st.chunks.length
  | some s => st.chunks.foldl (fun n c => n + scopedMatchCount st s c) 0

/-- The term-matching condition of the candidate query.  With more than one
query term, each term (already lower-case) is tested case-insensitively
(`toLower(...) CONTAINS $term`) against content, file path and header; with
at most one term the raw keyword is tested case-sensitively
(`c.content CONTAINS $keyword ...`). -/
def candMatches (terms : List String) (keyword : String) (c : ChunkRow) : Bool :=
  if terms.length > 1 then
    terms.any (fun t =>
      strContains (lowerStr c.content) t || strContains (lowerStr c.file_path) t ||
        strContains (lowerStr c.header) t)
  else
    strContains c.content keyword || strContains c.file_path keyword ||
      strContains c.header keyword

/-- The candidate chunk list returned by the search query (in chunk-table
order; under a scope one copy per matching `IN_FOLDER` row). -/
def candidateChunks (st : GraphState) (scope : Option String) (terms : List String)
    (keyword : String) : List ChunkRow :=
  match scope with
  | none => st.chunks.filter (fun c => candMatches terms keyword c)
  | some s => st.chunks.flatMap (fun c =>
      if candMatches terms keyword c then List.replicate (scopedMatchCount st s c) c
      else [])

/-- The per-term document-frequency query `df_query` of `keyword_search`:
it counts over all chunks and carries no scope filter. -/
def dfOf (st : GraphState) (term : String) : Nat :=
  (st.chunks.filter (fun c =>
    strContains (lowerStr c.content) term || strContains (lowerStr c.file_path) term ||
      strContains (lowerStr c.header) term)).length

/-- The `tags_query` of `keyword_search`: lower-cased names of the chunk's
`TAGGED` neighbours. -/
def chunkTagsLower (st : GraphState) (cid : String) : List String :=
  ((st.tagged.filter (fun e => e.1 = cid ∧ e.2 ∈ st.tags)).map
    (fun e => lowerStr e.2))

/-- One iteration of the BM25 term loop of `keyword_search` for one
candidate chunk, with `k1 = 1.5`, `b = 0.75`.  `lg` is `math.log`.  A term
with boosted `tf = 0` is skipped (`continue`). -/
def bm25TermAccum (st : GraphState) (lg : ℚ → ℚ) (n avgdl : ℚ) (c : ChunkRow)
    (acc : ℚ) (term : String) : ℚ :=
  let tf0 : ℚ := (strCount (lowerStr c.content) term : ℚ) +
    (strCount (lowerStr c.file_path) term : ℚ) * (3/2) +
    (strCount (lowerStr c.header) term : ℚ) * 2
  let tf1 : ℚ := if term ∈ chunkTagsLower st c.id then tf0 * 2 else tf0
  let tf : ℚ := if term ∈ technicalTerms then tf1 * (3/2) else tf1
  if tf = 0 then acc
  else
    let df : ℚ := (dfOf st term : ℚ)
    let idf := lg ((n - df + 1/2) / (df + 1/2) + 1)
    let dlen : ℚ := (c.content.data.length : ℚ)
    let ntf := (tf * (3/2 + 1)) / (tf + (3/2) * (1 - 3/4 + (3/4) * dlen / avgdl))
    acc + idf * ntf

/-- The BM25 accumulation loop over the query terms for one candidate chunk. -/
def scoreChunk (st : GraphState) (lg : ℚ → ℚ) (terms : List String) (n avgdl : ℚ)
    (c : ChunkRow) : ℚ :=
  terms.foldl (bm25TermAccum st lg n avgdl c) 0

/-- `GraphDB.keyword_search(keyword, scope)`: count documents (return `[]`
when zero), tokenise, fetch candidates (return `[]` when none), compute each
candidate's BM25 score rounded to 4 decimals, sort descending (stable) and
keep the top 50. -/
def keywordSearch (st : GraphState) (lg : ℚ → ℚ) (keyword : String)
    (scope : Option String) : List KWRow :=
  let n := totalDocs st scope
  if n = 0 then []
  else
    let terms := splitWs (lowerStr keyword)
    let cands := candidateChunks st scope terms keyword
    if cands = [] then []
    else
      let avgdl : ℚ :=
        (cands.foldl (fun s c => s + (c.content.data.length : ℚ)) 0) /
          (cands.length : ℚ)
      let scored := cands.map (fun c =>
        KWRow.mk c (roundTo4 (scoreChunk st lg terms (n : ℚ) avgdl c)))
      (sortByDesc (fun r => r.bm25_score) scored).take 50

/-! ## Hybrid search (`search.py`)

`HybridSearch.search` is embedded with its two retrieval calls at the
boundary: `kwResults` stands for `graph_db.keyword_search(query, scope)` and
`semOutcome` for the outcome of `graph_db.semantic_search(...)` (which runs
on the engine's vector index; `Except.error` models a raised exception).
`ex` is the stdlib `math.exp` applied to `-0.1 * rank`, i.e.
`ex rank = exp(-rank/10)`. -/

/-- A semantic-search result record (`{"col0": chunk}`). -/
structure SemRow : Type where
  col0 : ChunkRow
deriving Repr, DecidableEq

/-- A fused result record of `HybridSearch`. -/
structure FusedRow : Type where
  chunk : ChunkRow
  hybrid_score : ℚ
  keyword_score : ℚ
  semantic_score : ℚ
deriving Repr, DecidableEq

/-- The `chunk_data` entry kept per chunk id during fusion. -/
structure RRFData : Type where
  chunk : ChunkRow
  kw : ℚ
  sem : ℚ
deriving Repr, DecidableEq

/-- `rrf_scores[chunk_id] = rrf_scores.get(chunk_id, 0.0) + v`
(Python dicts keep first-insertion order; updates stay in place). -/
def alAddScore (al : List (String × ℚ)) (k : String) (v : ℚ) :
    List (String × ℚ) :=
  if al.any (fun p => p.1 = k) then
    al.map (fun p => if p.1 = k then (p.1, p.2 + v) else p)
  else al ++ [(k, v)]

/-- Plain dict assignment `d[k] = v` (update in place or append). -/
def alSet {α : Type} (al : List (String × α)) (k : String) (v : α) :
    List (String × α) :=
  if al.any (fun p => p.1 = k) then
    al.map (fun p => if p.1 = k then (p.1, v) else p)
  else al ++ [(k, v)]

/-- The keyword pass of `_reciprocal_rank_fusion` (ranks start at 1, empty
chunk ids are skipped, `k = 60`). -/
def rrfKwLoop : Nat → List (String × ℚ) → List (String × RRFData) →
    List KWRow → List (String × ℚ) × List (String × RRFData)
  | _, scores, data, [] => (scores, data)
  | rank, scores, data, r :: rest =>
    let cid := r.col0.id
    if cid = "" then rrfKwLoop (rank + 1) scores data rest
    else
      rrfKwLoop (rank + 1) (alAddScore scores cid (1 / (60 + (rank : ℚ))))
        (alSet data cid (RRFData.mk r.col0 r.bm25_score 0)) rest

/-- The semantic pass of `_reciprocal_rank_fusion`: accumulate the RRF score
and either update the existing entry's `semantic_score` or append a fresh
entry. -/
def rrfSemLoop : Nat → List (String × ℚ) → List (String × RRFData) →
    List SemRow → List (String × ℚ) × List (String × RRFData)
  | _, scores, data, [] => (scores, data)
  | rank, scores, data, r :: rest =>
    let cid := r.col0.id
    if cid = "" then rrfSemLoop (rank + 1) scores data rest
    else
      let scores2 := alAddScore scores cid (1 / (60 + (rank : ℚ)))
      let data2 :=
        if data.any (fun p => p.1 = cid) then
          data.map (fun p =>
            if p.1 = cid then (p.1, RRFData.mk p.2.chunk p.2.kw (1 / (60 + (rank : ℚ))))
            else p)
        else data ++ [(cid, RRFData.mk r.col0 0 (1 / (60 + (rank : ℚ))))]
      rrfSemLoop (rank + 1) scores2 data2 rest

/-- `max` over a list of rationals (the Python `max(...)` of a non-empty
sequence; `0` is returned for `[]` but that case is guarded by the caller). -/
def listMaxQ : List ℚ → ℚ
  | [] => 0
  | x :: xs => xs.foldl max x

/-- `min` over a list of rationals. -/
def listMinQ : List ℚ → ℚ
  | [] => 0
  | x :: xs => xs.foldl min x

/-- Placeholder row for `chunk_data[chunk_id]`; by construction the lookup
never misses, so this default is never reached. -/
def defaultRRFData : RRFData := RRFData.mk (ChunkRow.mk "" "" "" "" "" none) 0 0

/-- The `rrf_scores` / `chunk_data` pair after both passes of
`_reciprocal_rank_fusion` (before normalisation). -/
def rrfAccum (kw : List KWRow) (sem : List SemRow) :
    List (String × ℚ) × List (String × RRFData) :=
  let p := rrfKwLoop 1 [] [] kw
  rrfSemLoop 1 p.1 p.2 sem

/-- `HybridSearch._reciprocal_rank_fusion(keyword_results, semantic_results,
limit)`: accumulate `1/(60 + rank)` over both rankings, min-max normalise to
`[0, 1]`, build rows (scores rounded to 4 decimals), sort descending and
truncate. -/
def rrfFusion (kw : List KWRow) (sem : List SemRow) (limit : Nat) :
    List FusedRow :=
  let q := rrfAccum kw sem
  let scores :=
    if q.1 ≠ [] then
      let mx := listMaxQ (q.1.map (fun e => e.2))
      let mn := listMinQ (q.1.map (fun e => e.2))
      let range := if mn < mx then mx - mn else 1
      q.1.map (fun e => (e.1, (e.2 - mn) / range))
    else q.1
  let results := scores.map (fun e =>
    let d := (alLookup q.2 e.1).getD defaultRRFData
    FusedRow.mk d.chunk (roundTo4 e.2) d.kw d.sem)
  (sortByDesc (fun r => r.hybrid_score) results).take limit

/-- `HybridSearch._weighted_fusion`.  CPython iterates `all_chunk_ids` (a
hash set) in unspecified order; the model fixes the order to keyword-first
then new semantic ids. -/
def weightedFusion (ex : Nat → ℚ) (kw : List KWRow) (sem : List SemRow)
    (wsem wkw : ℚ) (limit : Nat) : List FusedRow :=
  let bm25s := kw.map (fun r => r.bm25_score)
  let mx := if bm25s ≠ [] then listMaxQ bm25s else 1
  let mn := if bm25s ≠ [] then listMinQ bm25s else 0
  let range := if mn < mx then mx - mn else 1
  let kwScores := kw.foldl (fun al r =>
    if r.col0.id = "" then al
    else alSet al r.col0.id ((r.bm25_score - mn) / range)) []
  let semScores := (sem.enum).foldl (fun al ir =>
    if ir.2.col0.id = "" then al
    else alSet al ir.2.col0.id (ex (ir.1 + 1))) []
  let chunkData0 := kw.foldl (fun al r =>
    if r.col0.id = "" then al else alSet al r.col0.id r.col0) []
  let chunkData := sem.foldl (fun al r =>
    if r.col0.id = "" then al
    else if al.any (fun p => p.1 = r.col0.id) then al
    else al ++ [(r.col0.id, r.col0)]) chunkData0
  let allIds := (kwScores.map (fun p => p.1)) ++
    ((semScores.map (fun p => p.1)).filter
      (fun i => ¬ (kwScores.map (fun p => p.1)).contains i))
  let results := allIds.map (fun cid =>
    let kws := (alLookup kwScores cid).getD 0
    let sems := (alLookup semScores cid).getD 0
    FusedRow.mk ((alLookup chunkData cid).getD (ChunkRow.mk "" "" "" "" "" none))
      (roundTo4 (wkw * kws + wsem * sems)) kws sems)
  (sortByDesc (fun r => r.hybrid_score) results).take limit

/-- `HybridSearch._format_results(results, keyword_only=True)`. -/
def formatKeywordOnly (kw : List KWRow) : List FusedRow :=
  kw.map (fun r => FusedRow.mk r.col0 r.bm25_score r.bm25_score 0)

/-- `HybridSearch._format_results(results, semantic_only=True)`; the
rank-decay score is `exp(-0.1 * (i + 1))`, rounded to 4 decimals. -/
def formatSemanticOnly (ex : Nat → ℚ) (sem : List SemRow) : List FusedRow :=
  (sem.enum).map (fun ir =>
    FusedRow.mk ir.2.col0 (roundTo4 (ex (ir.1 + 1))) 0 (roundTo4 (ex (ir.1 + 1))))

/-- `HybridSearch._strip_embeddings` on one result row. -/
def stripRow (r : FusedRow) : FusedRow :=
  { r with chunk := { r.chunk with embedding := none } }

/-- Tag names attached to a chunk (`(c)-[:TAGGED]->(t:Tag) RETURN t.name`). -/
def chunkTagNames (st : GraphState) (cid : String) : List String :=
  (st.tagged.filter (fun e => e.1 = cid ∧ e.2 ∈ st.tags)).map (fun e => e.2)

/-- `HybridSearch._filter_by_tags` (one graph round-trip per candidate). -/
def filterByTags (st : GraphState) (results : List FusedRow)
    (ftags : List String) : List FusedRow :=
  results.filter (fun r =>
    r.chunk.id ≠ "" ∧ ftags.any (fun t => t ∈ chunkTagNames st r.chunk.id))

/-- `HybridSearch._filter_by_pages`. -/
def filterByPages (results : List FusedRow) (fpages : List String) :
    List FusedRow :=
  results.filter (fun r => r.chunk.file_path ∈ fpages)

/-- Fusion method selector of `search`. -/
inductive FusionMethod : Type
  | rrf : FusionMethod
  | weighted : FusionMethod
deriving Repr, DecidableEq

/-- Python truthiness of an optional string list (`None` and `[]` are falsy). -/
def optListTruthy (o : Option (List String)) : Bool :=
  match o with
  | some (_ :: _) => true
  | _ => false

/-- `HybridSearch.search`.  `kwResults` is the value of
`keyword_search(query, scope)`; `semOutcome` the outcome of the
`semantic_search` call (`Except.error` = raised exception, caught and
degraded to keyword-only).  An empty (or whitespace) query raises
`ValueError`, modelled as `Except.error`. -/
def hybridSearchModel (st : GraphState) (ex : Nat → ℚ) (enableEmb : Bool)
    (kwResults : List KWRow) (semOutcome : Except String (List SemRow))
    (query : String) (limit : Nat) (ftags fpages : Option (List String))
    (fusion : FusionMethod) (wsem wkw : ℚ) : Except String (List FusedRow) :=
  if stripStr query = "" then Except.error "Query cannot be empty"
  else
    let wnorm :=
      if fusion = FusionMethod.weighted ∧ ¬ (|wsem + wkw - 1| ≤ 1/100)
      then (wsem / (wsem + wkw), wkw / (wsem + wkw))
      else (wsem, wkw)
    let semResults : List SemRow :=
      match enableEmb, semOutcome with
      | true, Except.ok l => l
      | true, Except.error _ => []
      | false, _ => []
    if semResults = [] then
      Except.ok (((formatKeywordOnly kwResults).take limit).map stripRow)
    else if kwResults = [] then
      Except.ok (((formatSemanticOnly ex semResults).take limit).map stripRow)
    else
      let fused :=
        match fusion with
        | FusionMethod.rrf => rrfFusion kwResults semResults (limit * 2)
        | FusionMethod.weighted =>
          weightedFusion ex kwResults semResults wnorm.1 wnorm.2 (limit * 2)
      let fused2 := if optListTruthy ftags then
        filterByTags st fused (ftags.getD []) else fused
      let fused3 := if optListTruthy fpages then
        filterByPages fused2 (fpages.getD []) else fused2
      Except.ok ((fused3.take limit).map stripRow)

/-! ## Incremental watcher (`watcher.py`)

The filesystem, clock and md5 are boundary inputs (`WatcherEnv`).  The
watcher's effect on the graph store is recorded as a call log
(`WatcherCall`); the store state is obtained by applying the logged calls in
order, so an empty log means no store mutation. -/

/-- Boundary inputs of one watcher event: the current time, the md5 of files
(`None` when unreadable) and the parser's result for a file. -/
structure WatcherEnv : Type where
  now : Int
  md5 : String → Option String
  parse : String → List PChunk

/-- Watcher process state (`debounce_time`, `file_hashes`,
`currently_processing`). -/
structure WatcherState : Type where
  debounce : List (String × Int)
  fileHashes : List (String × String)
  processing : List String
deriving Repr, DecidableEq

/-- One logged effect of the watcher. -/
inductive WatcherCall : Type
  | deleteByFile : String → WatcherCall
  | indexCall : List PChunk → WatcherCall
  | configWrite : String → WatcherCall
deriving Repr, DecidableEq

/-- `SpaceWatcher._has_content_changed`. -/
def hasContentChanged (env : WatcherEnv) (st : WatcherState) (path : String) : Bool :=
  match env.md5 path with
  | none => true
  | some h =>
    match alLookup st.fileHashes path with
    | none => true
    | some prev => h ≠ prev

/-- `SpaceWatcher._should_process`: debounce window of 5 seconds, in-flight
dedup, then the content-hash gate (which refreshes the debounce timestamp
even when rejecting). -/
def shouldProcess (env : WatcherEnv) (st : WatcherState) (path : String) :
    Bool × WatcherState :=
  let lastT := (alLookup st.debounce path).getD 0
  if env.now - lastT < 5 then (false, st)
  else if path ∈ st.processing then (false, st)
  else if ¬ hasContentChanged env st path then
    (false, { st with debounce := alSet st.debounce path env.now })
  else (true, st)

/-- `SpaceWatcher._mark_processing`. -/
def markProcessing (env : WatcherEnv) (st : WatcherState) (path : String) :
    Bool × WatcherState :=
  if path ∈ st.processing then (false, st)
  else (true, { st with
    processing := st.processing ++ [path]
    debounce := alSet st.debounce path env.now })

/-- `SpaceWatcher._update_file_hash`. -/
def updateFileHash (env : WatcherEnv) (st : WatcherState) (path : String) :
    WatcherState :=
  match env.md5 path with
  | some h => { st with fileHashes := alSet st.fileHashes path h }
  | none => st

/-- `SpaceWatcher._reindex_file`: mark in-flight, handle `CONFIG.md`, delete
the file's chunks, parse it, index the chunks when non-empty, refresh the
hash, and always clear the in-flight mark. -/
def reindexFile (env : WatcherEnv) (st : WatcherState) (path : String) :
    WatcherState × List WatcherCall :=
  match markProcessing env st path with
  | (false, st1) => (st1, [])
  | (true, st1) =>
    let cfgCalls := if strEnds path "CONFIG.md" then [WatcherCall.configWrite path]
      else []
    let chunks := env.parse path
    let idxCalls := if chunks ≠ [] then [WatcherCall.indexCall chunks] else []
    let st2 := updateFileHash env st1 path
    ({ st2 with processing := st2.processing.filter (fun p => p ≠ path) },
      cfgCalls ++ [WatcherCall.deleteByFile path] ++ idxCalls)

/-- `SpaceWatcher.on_modified`. -/
def onModified (env : WatcherEnv) (st : WatcherState) (path : String)
    (isDir : Bool) : WatcherState × List WatcherCall :=
  if isDir ∨ ¬ strEnds path ".md" then (st, [])
  else
    match shouldProcess env st path with
    | (false, st2) => (st2, [])
    | (true, st2) => reindexFile env st2 path

/-- `SpaceWatcher.on_created` (same body as `on_modified`). -/
def onCreated (env : WatcherEnv) (st : WatcherState) (path : String)
    (isDir : Bool) : WatcherState × List WatcherCall :=
  if isDir ∨ ¬ strEnds path ".md" then (st, [])
  else
    match shouldProcess env st path with
    | (false, st2) => (st2, [])
    | (true, st2) => reindexFile env st2 path

/-- `SpaceWatcher.on_deleted`: unconditional `delete_chunks_by_file` for
markdown files (no debounce, no hash gate). -/
def onDeleted (st : WatcherState) (path : String) (isDir : Bool) :
    WatcherState × List WatcherCall :=
  if isDir ∨ ¬ strEnds path ".md" then (st, [])
  else (st, [WatcherCall.deleteByFile path])

/-! ## Config tracker (`config_parser.py`)

The Lua AST parser (`luaparser`) is a boundary: each ```space-lua block
enters the model as `Option (List LuaCall)` — `none` when `ast.parse`
raises, otherwise the walked calls in order. -/

/-- A table key in the Lua AST (`Name`, `String`, or anything else). -/
inductive LuaKey : Type
  | name : String → LuaKey
  | strKey : String → LuaKey
  | otherKey : LuaKey

/-- A Lua value AST node, as far as `_lua_value_to_python` inspects it. -/
inductive LuaExpr : Type
  | str : String → LuaExpr
  | num : ℚ → LuaExpr
  | ltrue : LuaExpr
  | lfalse : LuaExpr
  | nil : LuaExpr
  | table : List (LuaKey × LuaExpr) → LuaExpr
  | otherNode : LuaExpr

/-- One walked `Call` node: whether its function is `config.set`, and its
argument expressions. -/
structure LuaCall : Type where
  isConfigSet : Bool
  args : List LuaExpr

/-- A parsed configuration value (Python str/number/bool/None/dict). -/
inductive CVal : Type
  | s : String → CVal
  | n : ℚ → CVal
  | b : Bool → CVal
  | nil : CVal
  | obj : List (String × CVal) → CVal

/-- A configuration dictionary. -/
abbrev CDict : Type := List (String × CVal)

/-- The string of a table key (`Name.id` or a `String`); `none` is skipped. -/
def luaKeyStr : LuaKey → Option String
  | LuaKey.name s => some s
  | LuaKey.strKey s => some s
  | LuaKey.otherKey => none

mutual

/-- `_lua_value_to_python`: unknown node kinds become `None`. -/
def luaValToPython : LuaExpr → CVal
  | LuaExpr.str s => CVal.s s
  | LuaExpr.num n => CVal.n n
  | LuaExpr.ltrue => CVal.b true
  | LuaExpr.lfalse => CVal.b false
  | LuaExpr.nil => CVal.nil
  | LuaExpr.table t => CVal.obj (luaTableGo [] t)
  | LuaExpr.otherNode => CVal.nil

/-- `_lua_table_to_dict`: iterate the fields, skipping non-string keys;
assignment has dict semantics (later duplicates overwrite in place). -/
def luaTableGo : CDict → List (LuaKey × LuaExpr) → CDict
  | acc, [] => acc
  | acc, (k, v) :: rest =>
    match luaKeyStr k with
    | some s => luaTableGo (alSet acc s (luaValToPython v)) rest
    | none => luaTableGo acc rest

end

/-- `key.split(".")` (keeps empty pieces; never returns `[]`). -/
def splitDots (s : String) : List String :=
  s.split (fun c => c = '.')

/-- `_set_nested`: walk the dotted path with `setdefault(part, {})`; `none`
models the `TypeError`/`AttributeError` Python raises when an intermediate
value is present but is not a dict. -/
def setNested (d : CDict) : List String → CVal → Option CDict
  | [], _ => some d
  | [p], v => some (alSet d p v)
  | p :: q :: rest, v =>
    match alLookup d p with
    | some (CVal.obj o) =>
      (setNested o (q :: rest) v).map (fun o2 => alSet d p (CVal.obj o2))
    | some _ => none
    | none =>
      (setNested [] (q :: rest) v).map (fun o2 => alSet d p (CVal.obj o2))

mutual

/-- Size of a configuration value (fuel measure for `deepMerge`). -/
def cvalSize : CVal → Nat
  | CVal.obj fields => 1 + cdictSize fields
  | _ => 1

/-- Size of a configuration dictionary. -/
def cdictSize : List (String × CVal) → Nat
  | [] => 1
  | (_, v) :: rest => 1 + cvalSize v + cdictSize rest

end

/-- Fuel-driven worker for `_deep_merge` (structural recursion on the fuel;
the fuel is chosen to dominate the recursion depth, so the `0` case is never
reached on the calls `deepMerge` makes). -/
def deepMergeF : Nat → CDict → CDict → CDict
  | 0, base, _ => base
  | _ + 1, base, [] => base
  | fuel + 1, base, (k, v) :: rest =>
    let merged :=
      match alLookup base k, v with
      | some (CVal.obj rv), CVal.obj ov => alSet base k (CVal.obj (deepMergeF fuel rv ov))
      | _, _ => alSet base k v
    deepMergeF fuel merged rest

/-- `_deep_merge`: override wins; dicts merge recursively. -/
def deepMerge (base override : CDict) : CDict :=
  deepMergeF (cdictSize override) base override

/-- The call loop of `_parse_lua_config`; `none` models an exception escaping
the loop (only `_set_nested` can raise). -/
def luaCallLoop : CDict → List LuaCall → Option CDict
  | config, [] => some config
  | config, c :: rest =>
    if ¬ c.isConfigSet then luaCallLoop config rest
    else
      match c.args with
      | [LuaExpr.str key, v] =>
        match setNested config (splitDots key) (luaValToPython v) with
        | some cfg => luaCallLoop cfg rest
        | none => none
      | [LuaExpr.table t] => luaCallLoop (deepMerge config (luaTableGo [] t)) rest
      | _ => luaCallLoop config rest

/-- `_parse_lua_config`: an `ast.parse` failure is caught and logged and the
(empty) config accumulated so far is returned; exceptions after parsing
propagate. -/
def parseLuaConfig : Option (List LuaCall) → Option CDict
  | none => some []
  | some calls => luaCallLoop [] calls

/-- The block fold of `parse_config_page`. -/
def parseConfigPageGo (config : CDict) : List (Option (List LuaCall)) → Option CDict
  | [] => some config
  | b :: rest =>
    match parseLuaConfig b with
    | some bc => parseConfigPageGo (deepMerge config bc) rest
    | none => none

/-- `parse_config_page`: deep-merge the per-block configs in order;
exceptions propagate (`none`). -/
def parseConfigPage (blocks : List (Option (List LuaCall))) : Option CDict :=
  parseConfigPageGo [] blocks

/-- `SpaceWatcher._handle_config_change` acting on the sidecar
`<db_parent>/space_config.json` (modelled as the decoded previous dict, or
`none` when absent).  `read` is the outcome of `Path(file_path).read_text`
followed by the block extraction: `none` when reading raised.  Any exception
is caught and logged, leaving the sidecar untouched; otherwise
`write_config_json` overwrites it. -/
def handleConfigChange (read : Option (List (Option (List LuaCall))))
    (sidecar : Option CDict) : Option CDict :=
  match read with
  | none => sidecar
  | some blocks =>
    match parseConfigPage blocks with
    | none => sidecar
    | some cfg => some cfg

/-! ## Claim-side (specification) definitions for the keyword search

These follow the wording of the spec/claims; the code-side function is
`keywordSearch` above.  Shared low-level string helpers and the runtime's
stable sort are reused; everything pipeline-specific is restated from the
claim text. -/

/-- `term` occurs case-insensitively as a substring of the chunk's content,
file path or header. -/
def ciOccurs (term : String) (c : ChunkRow) : Bool :=
  strContains (lowerStr c.content) term || strContains (lowerStr c.file_path) term ||
    strContains (lowerStr c.header) term

/-- Claim-side document frequency: the number of chunks in which the term
occurs case-insensitively in content, file path or header. -/
def specDf (st : GraphState) (term : String) : ℕ :=
  (st.chunks.filter (fun c => ciOccurs term c)).length

/-- The claim's scope condition on a chunk: it has an `IN_FOLDER` edge to an
existing folder whose path equals the scope or starts with `scope + "/"`. -/
def specInScope (st : GraphState) (s : String) (c : ChunkRow) : Bool :=
  st.inFolder.any (fun e =>
    e.1 = c.id ∧ st.folders.any (fun f => f.path = e.2) ∧ inScopeFolder s e.2)

/-- Claim-side scoped document frequency (C3 as stated): `specDf` restricted
to in-scope chunks. -/
def specDfScoped (st : GraphState) (s : String) (term : String) : ℕ :=
  (st.chunks.filter (fun c => ciOccurs term c ∧ specInScope st s c)).length

/-- The claim's per-term boosted term frequency:
`occurrences in content + 1.5 · occurrences in file_path + 2.0 · occurrences
in header`, doubled on a tag match, times 1.5 for a technical term. -/
def specTF (st : GraphState) (term : String) (c : ChunkRow) : ℚ :=
  let base : ℚ := (strCount (lowerStr c.content) term : ℚ) +
    (3/2) * (strCount (lowerStr c.file_path) term : ℚ) +
    2 * (strCount (lowerStr c.header) term : ℚ)
  let t1 := if term ∈ chunkTagsLower st c.id then base * 2 else base
  if term ∈ technicalTerms then t1 * (3/2) else t1

/-- The claim's BM25 term score
`idf · tf·(k1+1) / (tf + k1·(1 − b + b·|d|/avgdl))`, `k1 = 1.5`, `b = 0.75`,
`idf = ln((N − df + 0.5)/(df + 0.5) + 1)`. -/
def specTermScore (lg : ℚ → ℚ) (tf df n dlen avgdl : ℚ) : ℚ :=
  lg ((n - df + 1/2) / (df + 1/2) + 1) *
    (tf * (3/2 + 1) / (tf + (3/2) * (1 - 3/4 + (3/4) * dlen / avgdl)))

/-- Claim-side chunk score: the sum of the term scores over the query terms
(`df` is supplied per term so that scoped and unscoped variants share it). -/
def specChunkScore (st : GraphState) (lg : ℚ → ℚ) (dfFun : String → ℕ)
    (terms : List String) (n avgdl : ℚ) (c : ChunkRow) : ℚ :=
  (terms.map (fun t =>
    specTermScore lg (specTF st t c) (dfFun t : ℚ) n (c.content.data.length : ℚ)
      avgdl)).sum

/-- Mean candidate content length (documents are measured in characters). -/
def specAvgdl (cands : List ChunkRow) : ℚ :=
  ((cands.map (fun c => (c.content.data.length : ℚ))).sum) / (cands.length : ℚ)

/-- C2 exactly as claimed: candidates are the chunks in which SOME term
occurs case-insensitively (for every arity of the query). -/
def kwClaimAsStated (st : GraphState) (lg : ℚ → ℚ) (keyword : String) :
    List KWRow :=
  let n := st.chunks.length
  if n = 0 then []
  else
    let terms := splitWs (lowerStr keyword)
    let cands := st.chunks.filter (fun c => terms.any (fun t => ciOccurs t c))
    let avgdl := specAvgdl cands
    let scored := cands.map (fun c =>
      KWRow.mk c (roundTo4 (specChunkScore st lg (specDf st) terms (n : ℚ) avgdl c)))
    (sortByDesc (fun r => r.bm25_score) scored).take 50

/-- The amended candidate rule: with two or more terms a chunk matches when
some (lower-case) term occurs case-insensitively; with at most one term the
raw keyword must occur case-sensitively. -/
def amendedCand (terms : List String) (keyword : String) (c : ChunkRow) : Bool :=
  if terms.length > 1 then terms.any (fun t => ciOccurs t c)
  else
    strContains c.content keyword || strContains c.file_path keyword ||
      strContains c.header keyword

/-- C2 as amended: the claim's pipeline with the amended candidate rule. -/
def kwSpecAmended (st : GraphState) (lg : ℚ → ℚ) (keyword : String) :
    List KWRow :=
  let n := st.chunks.length
  if n = 0 then []
  else
    let terms := splitWs (lowerStr keyword)
    let cands := st.chunks.filter (fun c => amendedCand terms keyword c)
    let avgdl := specAvgdl cands
    let scored := cands.map (fun c =>
      KWRow.mk c (roundTo4 (specChunkScore st lg (specDf st) terms (n : ℚ) avgdl c)))
    (sortByDesc (fun r => r.bm25_score) scored).take 50

/-- C3 exactly as claimed: `N`, every `df_t` and the candidate set are all
restricted to in-scope chunks (candidate matching uses the amended rule,
which C3 does not dispute). -/
def kwClaimScopedAsStated (st : GraphState) (lg : ℚ → ℚ) (keyword : String)
    (s : String) : List KWRow :=
  let n := (st.chunks.filter (fun c => specInScope st s c)).length
  if n = 0 then []
  else
    let terms := splitWs (lowerStr keyword)
    let cands := st.chunks.filter
      (fun c => amendedCand terms keyword c ∧ specInScope st s c)
    let avgdl := specAvgdl cands
    let scored := cands.map (fun c =>
      KWRow.mk c (roundTo4 (specChunkScore st lg (specDfScoped st s) terms (n : ℚ)
        avgdl c)))
    (sortByDesc (fun r => r.bm25_score) scored).take 50

/-- C3 as amended: `N` and the candidate set are scope-restricted but each
`df_t` is computed over the whole chunk table, ignoring the scope. -/
def kwSpecScopedAmended (st : GraphState) (lg : ℚ → ℚ) (keyword : String)
    (s : String) : List KWRow :=
  let n := (st.chunks.filter (fun c => specInScope st s c)).length
  if n = 0 then []
  else
    let terms := splitWs (lowerStr keyword)
    let cands := st.chunks.filter
      (fun c => amendedCand terms keyword c ∧ specInScope st s c)
    let avgdl := specAvgdl cands
    let scored := cands.map (fun c =>
      KWRow.mk c (roundTo4 (specChunkScore st lg (specDf st) terms (n : ℚ) avgdl c)))
    (sortByDesc (fun r => r.bm25_score) scored).take 50

/-! ## Claim-side definitions for RRF fusion (C7) -/

/-- The claim's raw RRF score of a chunk id: the sum, over the two rankings
in which it appears, of `1/(60 + rank)` with 1-based ranks. -/
def rrfSpecScore (kw : List KWRow) (sem : List SemRow) (id : String) : ℚ :=
  (match List.findIdx? (fun r => r.col0.id = id) kw with
   | some p => 1 / (60 + ((p : ℚ) + 1))
   | none => 0) +
  (match List.findIdx? (fun r => r.col0.id = id) sem with
   | some p => 1 / (60 + ((p : ℚ) + 1))
   | none => 0)

/-- Minimum of the accumulated raw RRF scores. -/
def rrfRawMin (kw : List KWRow) (sem : List SemRow) : ℚ :=
  listMinQ ((rrfAccum kw sem).1.map (fun e => e.2))

/-- Maximum of the accumulated raw RRF scores. -/
def rrfRawMax (kw : List KWRow) (sem : List SemRow) : ℚ :=
  listMaxQ ((rrfAccum kw sem).1.map (fun e => e.2))

/-- The min-max normalisation denominator used by the code (`1` when the
scores are all equal). -/
def rrfRawRange (kw : List KWRow) (sem : List SemRow) : ℚ :=
  if rrfRawMin kw sem < rrfRawMax kw sem then rrfRawMax kw sem - rrfRawMin kw sem
  else 1

/-! ## Concrete inputs used by the claim theorems -/

/-- A chunk of `notes.md` with no wikilinks (C1 failing input). -/
def exNotesChunk : PChunk :=
  PChunk.mk "notes.md" "notes" "hello world" [] [] "" [] [] [] []

/-- `md.parse` of the post-frontmatter body `"## Section 1\nBody text.\n"`
(C4 failing input): an h2 heading followed by one paragraph. -/
def exC4Tokens : List MDToken :=
  [MDToken.mk "heading_open" "h2" "", MDToken.mk "inline" "" "Section 1",
   MDToken.mk "heading_close" "h2" "", MDToken.mk "paragraph_open" "p" "",
   MDToken.mk "inline" "" "Body text.", MDToken.mk "paragraph_close" "p" ""]

/-- A file whose only tag support is a data block (C5 failing input):
`f.md` containing a fenced ```#task YAML block and plain content. -/
def exC5Chunk : PChunk :=
  PChunk.mk "f.md" "f" "content" [] [] "" [] [] []
    [PDataBlock.mk "task" [("status", "open")] "f.md"]

/-- The store after indexing `exC5Chunk` into an empty graph. -/
def exC5Indexed : GraphState := indexChunks false [] graphEmpty [exC5Chunk]

/-- The store after `delete_chunks_by_file("f.md")` on `exC5Indexed`. -/
def exC5After : GraphState := deleteChunksByFile exC5Indexed "f.md"

/-- One chunk row whose content holds `database` in lower case (C2). -/
def exC2Row : ChunkRow :=
  ChunkRow.mk "notes.md#notes" "notes.md" "notes" "database stuff" "\x7b\x7d" none

/-- A store with the single chunk `exC2Row` (C2 failing input). -/
def exC2State : GraphState := { graphEmpty with chunks := [exC2Row] }

/-- Chunk row in folder `A` (C3 failing input). -/
def exC3RowA : ChunkRow :=
  ChunkRow.mk "a.md#h1" "a.md" "h1" "database alpha" "\x7b\x7d" none

/-- Chunk row in folder `B` (outside the scope; it still raises the global
document frequency of `database`). -/
def exC3RowB : ChunkRow :=
  ChunkRow.mk "b.md#h2" "b.md" "h2" "database beta" "\x7b\x7d" none

/-- Two chunks in folders `A` and `B` (C3 failing input). -/
def exC3State : GraphState :=
  { graphEmpty with
    chunks := [exC3RowA, exC3RowB]
    folders := [FolderRow.mk "A" "A" false, FolderRow.mk "B" "B" false]
    inFolder := [("a.md#h1", "A"), ("b.md#h2", "B")] }

/-- The previous sidecar contents used by the C8 counterexample. -/
def exC8Prev : CDict := [("a", CVal.s "1")]

/-- A CONFIG.md whose single space-lua block fails `ast.parse`
(C8 failing input). -/
def exC8Read : List (Option (List LuaCall)) := [none]

/-- Watcher environment for the C6 witness: fixed clock, constant md5,
empty parses. -/
def exC6Env : WatcherEnv :=
  WatcherEnv.mk 100 (fun _ => some "abcd") (fun _ => [])

/-- Watcher state for the C6 witness: `n.md` already hashed to `abcd`. -/
def exC6St : WatcherState := WatcherState.mk [] [("n.md", "abcd")] []

/-- A one-row keyword result list (used by the C9 witness). -/
def exC9Kw : List KWRow := [KWRow.mk exC2Row (3/2)]

/-- A data block for the C10 witness. -/
def exC10Block : PDataBlock := PDataBlock.mk "task" [("status", "open")] "d.md"

/-- Keyword results for the C7 witness: distinct non-empty chunk ids. -/
def exC7Kw : List KWRow :=
  [KWRow.mk (ChunkRow.mk "a.md#a" "a.md" "a" "alpha" "\x7b\x7d" none) 3,
   KWRow.mk (ChunkRow.mk "b.md#b" "b.md" "b" "beta" "\x7b\x7d" none) 2]

/-- Semantic results for the C7 witness. -/
def exC7Sem : List SemRow :=
  [SemRow.mk (ChunkRow.mk "b.md#b" "b.md" "b" "beta" "\x7b\x7d" none),
   SemRow.mk (ChunkRow.mk "c.md#c" "c.md" "c" "gamma" "\x7b\x7d" none)]

/-! # Helper lemmas -/

/-- Rounding the rational `1` to four decimals gives `1`. -/
theorem roundTo4_one : roundTo4 1 = 1 := by
  simp [roundTo4]

/-- Evaluation of the code-side BM25 score on the C3 failing input
(`lg` instantiated with the identity): the unscoped `df = 2` makes the
idf argument `0.8`, and the score comes out as `1`. -/
theorem c3CodeScoreEval : scoreChunk exC3State (fun x => x) ["database"]
    ((1 : ℕ) : ℚ) (((0 : ℚ) + ((14 : ℕ) : ℚ)) / ((1 : ℕ) : ℚ)) exC3RowA = 1 := by
  simp only [scoreChunk, bm25TermAccum, List.foldl]
  rw [show chunkTagsLower exC3State exC3RowA.id = [] from rfl]
  rw [show dfOf exC3State "database" = 2 from rfl]
  rw [show strCount (lowerStr exC3RowA.content) "database" = 1 from rfl]
  rw [show strCount (lowerStr exC3RowA.file_path) "database" = 0 from rfl]
  rw [show strCount (lowerStr exC3RowA.header) "database" = 0 from rfl]
  rw [show exC3RowA.content.data.length = 14 from rfl]
  have hmem : ("database" : String) ∈ technicalTerms := by
    simp [technicalTerms]
  simp only [List.not_mem_nil, if_false, if_neg, hmem, if_true, if_pos]
  norm_num

/-- Evaluation of the claim-side BM25 score on the C3 failing input: the
scoped `df = 1` makes the idf argument `4/3`, and the score is `5/3`. -/
theorem c3ClaimScoreEval : specChunkScore exC3State (fun x => x)
    (specDfScoped exC3State "A") ["database"] ((1 : ℕ) : ℚ)
    (specAvgdl [exC3RowA]) exC3RowA = 5/3 := by
  simp only [specChunkScore, specTF, specTermScore, specAvgdl, List.map,
    List.sum_cons, List.sum_nil]
  rw [show chunkTagsLower exC3State exC3RowA.id = [] from rfl]
  rw [show specDfScoped exC3State "A" "database" = 1 from rfl]
  rw [show strCount (lowerStr exC3RowA.content) "database" = 1 from rfl]
  rw [show strCount (lowerStr exC3RowA.file_path) "database" = 0 from rfl]
  rw [show strCount (lowerStr exC3RowA.header) "database" = 0 from rfl]
  rw [show exC3RowA.content.data.length = 14 from rfl]
  have hmem : ("database" : String) ∈ technicalTerms := by
    simp [technicalTerms]
  simp only [List.not_mem_nil, if_false, if_neg, hmem, if_true, if_pos]
  norm_num

/-! # Claim theorems -/

/-- C1: the claim states that `index_chunks` merges a Page node named
`<file_path minus .md>` for each source file and records `HAS_CHUNK` edges
(with `chunk_order`) and `PAGE_LINKS_TO` edges.  The code does none of this:
indexing a one-chunk batch for `notes.md` (no wikilinks) creates the chunk
node but not a single Page node, and `_init_schema` does not even declare a
`HAS_CHUNK` or `PAGE_LINKS_TO` relationship table — although the repository's
own tests (`test_page_relationships.py`) require all three. -/
theorem c1_index_chunks_creates_no_source_page :
    (indexChunks false [] graphEmpty [exNotesChunk]).chunks.map (fun c => c.id)
        = ["notes.md#notes"] ∧
      (indexChunks false [] graphEmpty [exNotesChunk]).pages = [] ∧
      "HAS_CHUNK" ∉ schemaRelTables ∧ "PAGE_LINKS_TO" ∉ schemaRelTables := by
  refine ⟨rfl, rfl, ?_, ?_⟩ <;> decide

/-- C4: the claim states that each chunk's header equals the `##` heading
text (or the filename stem when no `##` exists).  On the body
`"## Section 1\nBody text.\n"` the token walk instead sets `current_header`
from every non-empty inline token (the `parent_open` test looks at the whole
token list, contradicting its own `Check if this is heading content`
comment), so the single produced chunk carries header `"Body text."` — the
last content line — rather than `"Section 1"`. -/
theorem c4_chunk_header_is_last_inline_not_heading :
    (parseFileModel "note.md" "" [] "## Section 1\nBody text.\n" exC4Tokens []).map
        (fun c => (c.header, c.content))
        = [("Body text.", "Section 1\nBody text.")] ∧
      ("Body text." : String) ≠ "Section 1" := by
  exact ⟨rfl, by decide⟩

/-- C5: the claim states that after `delete_chunks_by_file(F)` every
remaining Tag node has an incoming `TAGGED` or `DATA_TAGGED` edge.  The
cleanup passes run tags-first: deleting `f.md` (whose only tag support is a
data block) removes the chunk, keeps tag `task` (the DataBlock still feeds
it `DATA_TAGGED`), and only afterwards detach-deletes the orphaned DataBlock
— leaving `task` as a Tag node with no incoming edge at all. -/
theorem c5_delete_leaves_orphan_tag_from_datablock :
    exC5After.tags = ["task"] ∧ exC5After.tagged = [] ∧
      exC5After.dataTagged = [] ∧ exC5After.dataBlocks = [] ∧
      exC5After.chunks = [] ∧
      exC5Indexed.dataTagged = [("f.md#f#datablock#0", "task")] := by
  exact ⟨rfl, rfl, rfl, rfl, rfl, rfl⟩

/-- C2 (counterexample): the claim as stated takes candidates by
case-insensitive containment for every query.  For the single-term query
`"Database"` over a chunk containing `"database stuff"` the code's
single-term branch tests the raw keyword case-sensitively and returns `[]`,
while the claim's pipeline returns the chunk. -/
theorem c2_counterexample_case_sensitive_single_term :
    keywordSearch exC2State (fun x => x) "Database" none = [] ∧
      kwClaimAsStated exC2State (fun x => x) "Database" ≠ [] ∧
      keywordSearch exC2State (fun x => x) "Database" none ≠
        kwClaimAsStated exC2State (fun x => x) "Database" := by
  refine ⟨rfl, ?_, ?_⟩ <;> decide

/-- C3 (counterexample): the claim as stated restricts the document
frequency to the scope.  With `database alpha` inside scope `A` and
`database beta` outside it, the code's `df_query` counts both chunks
(`dfOf = 2`) whereas the claim requires the in-scope count `1`;
instantiating the opaque `math.log` with the identity, the full outputs
differ (score `1` versus `5/3 ≈ 1.6667`; `ln` is injective on the two
distinct idf arguments, so the discrepancy is real for the actual logarithm
as well). -/
theorem c3_counterexample_df_not_scoped :
    dfOf exC3State "database" = 2 ∧
      specDfScoped exC3State "A" "database" = 1 ∧
      keywordSearch exC3State (fun x => x) "database" (some "A") ≠
        kwClaimScopedAsStated exC3State (fun x => x) "database" "A" := by
  refine ⟨rfl, rfl, ?_⟩
  have h1 : keywordSearch exC3State (fun x => x) "database" (some "A") =
      [KWRow.mk exC3RowA (roundTo4 (scoreChunk exC3State (fun x => x) ["database"]
        ((1 : ℕ) : ℚ) (((0 : ℚ) + ((14 : ℕ) : ℚ)) / ((1 : ℕ) : ℚ)) exC3RowA))] := rfl
  have h2 : kwClaimScopedAsStated exC3State (fun x => x) "database" "A" =
      [KWRow.mk exC3RowA (roundTo4 (specChunkScore exC3State (fun x => x)
        (specDfScoped exC3State "A") ["database"] ((1 : ℕ) : ℚ)
        (specAvgdl [exC3RowA]) exC3RowA))] := rfl
  rw [h1, h2, c3CodeScoreEval, c3ClaimScoreEval]
  intro h
  have h3 : roundTo4 1 = roundTo4 (5/3) :=
    ((KWRow.mk.injEq _ _ _ _).mp ((List.cons.injEq _ _ _ _).mp h).1).2
  rw [roundTo4_one, roundTo4, round_eq] at h3
  norm_num at h3

/-- C8 (counterexample): the claim states a parse failure leaves the
previously written sidecar untouched.  A CONFIG.md whose only space-lua
block fails `ast.parse` is caught *inside* `_parse_lua_config`, which
returns an empty config; `_handle_config_change` then overwrites the sidecar
with `{}`, clobbering the previous contents. -/
theorem c8_counterexample_sidecar_overwritten :
    handleConfigChange (some exC8Read) (some exC8Prev) = some [] ∧
      handleConfigChange (some exC8Read) (some exC8Prev) ≠ some exC8Prev := by
  refine ⟨rfl, ?_⟩
  intro h
  have h2 : ([] : CDict) = exC8Prev := Option.some.inj (rfl.trans h)
  simp [exC8Prev] at h2

/-- Merging an empty override is the identity. -/
theorem deepMerge_nil (c : CDict) : deepMerge c [] = c := rfl

/-- Blocks whose `ast.parse` failed contribute nothing to the page fold. -/
theorem parseConfigPageGo_filter (blocks : List (Option (List LuaCall))) :
    ∀ config, parseConfigPageGo config blocks =
      parseConfigPageGo config (blocks.filter (fun b => b.isSome)) := by
  induction blocks with
  | nil => intro config; rfl
  | cons b rest ih =>
    intro config
    rcases b with _ | calls
    · simp only [parseConfigPageGo, parseLuaConfig, deepMerge_nil, List.filter,
        Option.isSome_none]
      exact ih config
    · simp only [List.filter, Option.isSome_some]
      simp only [parseConfigPageGo, parseLuaConfig]
      rcases hc : luaCallLoop [] calls with _ | bc
      · rfl
      · exact ih (deepMerge config bc)

/-- C8 (amended): when a space-lua block of CONFIG.md fails to parse, the
failure is swallowed inside `_parse_lua_config`; handling the change still
*overwrites* `<db_parent>/space_config.json`, now with the deep-merge of the
successfully parsed blocks only (the failing blocks contribute nothing).
The previous JSON survives only if an exception escapes the whole
read-and-parse step. -/
theorem c8_failed_blocks_dropped_sidecar_overwritten
    (blocks : List (Option (List LuaCall))) (prev : Option CDict) (cfg : CDict)
    (h : parseConfigPage blocks = some cfg) :
    handleConfigChange (some blocks) prev = some cfg ∧
      parseConfigPage blocks =
        parseConfigPage (blocks.filter (fun b => b.isSome)) ∧
      (∀ blocks2, parseConfigPage blocks2 = none →
        handleConfigChange (some blocks2) prev = prev) := by
  refine ⟨?_, ?_, ?_⟩
  · simp [handleConfigChange, h]
  · exact parseConfigPageGo_filter blocks []
  · intro blocks2 h2
    simp [handleConfigChange, h2]

/-- C8 (witness): at the concrete failing input the sidecar is overwritten
with the empty config. -/
theorem c8_witness :
    handleConfigChange (some exC8Read) (some exC8Prev) = some [] ∧
      parseConfigPage exC8Read =
        parseConfigPage (exC8Read.filter (fun b => b.isSome)) := by
  have h := c8_failed_blocks_dropped_sidecar_overwritten exC8Read (some exC8Prev) [] rfl
  exact ⟨h.1, h.2.1⟩

/-- C6: an `on_modified` (or `on_created`) event for a path whose current
md5 equals the recorded `file_hashes` entry performs no graph-store call at
all — in particular neither `delete_chunks_by_file` nor `index_chunks` —
and the only watcher-state change is (at most) refreshing that path's
debounce timestamp. -/
theorem c6_unchanged_hash_no_store_mutation (env : WatcherEnv) (st : WatcherState)
    (path : String) (h0 : String) (hm : env.md5 path = some h0)
    (hh : alLookup st.fileHashes path = some h0) :
    (onModified env st path false).2 = [] ∧
      onCreated env st path false = onModified env st path false ∧
      (onModified env st path false).1.fileHashes = st.fileHashes ∧
      (onModified env st path false).1.processing = st.processing ∧
      ((onModified env st path false).1.debounce = st.debounce ∨
        (onModified env st path false).1.debounce = alSet st.debounce path env.now) := by
  have hcc : hasContentChanged env st path = false := by
    simp [hasContentChanged, hm, hh]
  have hsp : shouldProcess env st path = (false, st) ∨
      shouldProcess env st path =
        (false, { st with debounce := alSet st.debounce path env.now }) := by
    simp only [shouldProcess, hcc, Bool.false_eq_true, not_false_eq_true, if_true]
    split_ifs with h1 h2
    · exact Or.inl rfl
    · exact Or.inl rfl
    · exact Or.inr rfl
  have hco : onCreated env st path false = onModified env st path false := rfl
  have key : onModified env st path false = (st, []) ∨
      onModified env st path false =
        ({ st with debounce := alSet st.debounce path env.now }, []) := by
    unfold onModified
    by_cases hmd : strEnds path ".md" = true
    · rw [if_neg (by simp [hmd])]
      rcases hsp with h | h
      · rw [h]
        exact Or.inl rfl
      · rw [h]
        exact Or.inr rfl
    · rw [if_pos (by simp [hmd])]
      exact Or.inl rfl
  rcases key with h | h <;> rw [h] <;>
    exact ⟨rfl, hco.trans h, rfl, rfl, by first | exact Or.inl rfl | exact Or.inr rfl⟩

/-- C6 (witness): concrete unchanged-hash modify event. -/
theorem c6_witness :
    (onModified exC6Env exC6St "n.md" false).2 = [] ∧
      onCreated exC6Env exC6St "n.md" false = onModified exC6Env exC6St "n.md" false ∧
      (onModified exC6Env exC6St "n.md" false).1.fileHashes = exC6St.fileHashes ∧
      (onModified exC6Env exC6St "n.md" false).1.processing = exC6St.processing ∧
      ((onModified exC6Env exC6St "n.md" false).1.debounce = exC6St.debounce ∨
        (onModified exC6Env exC6St "n.md" false).1.debounce =
          alSet exC6St.debounce "n.md" exC6Env.now) :=
  c6_unchanged_hash_no_store_mutation exC6Env exC6St "n.md" "abcd" rfl rfl

/-- C9: when embeddings are disabled or the semantic-search call raises, the
hybrid search does not propagate the failure: it returns the keyword
results in keyword-only format (semantic score `0` on every item), truncated
to `limit`, with embeddings stripped. -/
theorem c9_semantic_failure_degrades_to_keyword_only
    (st : GraphState) (ex : Nat → ℚ) (enableEmb : Bool) (kw : List KWRow)
    (semOutcome : Except String (List SemRow)) (q : String) (limit : Nat)
    (ft fp : Option (List String)) (fusion : FusionMethod) (ws wk : ℚ)
    (msg : String)
    (hfail : enableEmb = false ∨ semOutcome = Except.error msg)
    (hq : ¬ stripStr q = "") :
    hybridSearchModel st ex enableEmb kw semOutcome q limit ft fp fusion ws wk
        = Except.ok (((formatKeywordOnly kw).take limit).map stripRow) ∧
      ∀ r ∈ ((formatKeywordOnly kw).take limit).map stripRow,
        r.semantic_score = 0 := by
  constructor
  · unfold hybridSearchModel
    rw [if_neg hq]
    rcases hfail with h | h
    · subst h
      rcases semOutcome with e | l <;> simp
    · subst h
      cases enableEmb <;> simp
  · intro r hr
    simp only [List.mem_map] at hr
    obtain ⟨r0, hr0, rfl⟩ := hr
    have hr1 : r0 ∈ formatKeywordOnly kw := List.mem_of_mem_take hr0
    simp only [formatKeywordOnly, List.mem_map] at hr1
    obtain ⟨k0, _, rfl⟩ := hr1
    rfl

/-- C9 (witness): a raised semantic search over one keyword result. -/
theorem c9_witness :
    hybridSearchModel graphEmpty (fun _ => 0) true exC9Kw
        (Except.error "boom") "q" 5 none none FusionMethod.rrf (1/2) (1/2)
        = Except.ok (((formatKeywordOnly exC9Kw).take 5).map stripRow) ∧
      ∀ r ∈ ((formatKeywordOnly exC9Kw).take 5).map stripRow,
        r.semantic_score = 0 :=
  c9_semantic_failure_degrades_to_keyword_only graphEmpty (fun _ => 0) true exC9Kw
    (Except.error "boom") "q" 5 none none FusionMethod.rrf (1/2) (1/2) "boom"
    (Or.inr rfl) (by decide)

/-- Chunks produced by `flushChunk` carry no data blocks. -/
theorem flushChunk_data_blocks (fp header folder : String) (fm : FM) (raw : String)
    (content : List String) :
    ∀ c ∈ flushChunk fp header folder fm raw content, c.data_blocks = [] := by
  intro c hc
  simp only [flushChunk] at hc
  split_ifs at hc
  · exact absurd hc (List.not_mem_nil c)
  · exact absurd hc (List.not_mem_nil c)
  · rw [List.mem_singleton.mp hc]
    rfl

/-- Chunks produced by the token walk carry no data blocks. -/
theorem chunksWalk_data_blocks (fp folder : String) (fm : FM) (raw : String)
    (hh : Bool) :
    ∀ (tokens : List MDToken) (header : String) (content : List String),
      ∀ c ∈ chunksWalk fp folder fm raw hh header content tokens,
        c.data_blocks = [] := by
  intro tokens
  induction tokens with
  | nil =>
    intro header content c hc
    exact flushChunk_data_blocks fp header folder fm raw content c hc
  | cons t rest ih =>
    intro header content c hc
    unfold chunksWalk at hc
    split_ifs at hc <;>
      first
        | (rcases List.mem_append.mp hc with h | h
           · exact flushChunk_data_blocks fp header folder fm raw content c h
           · exact ih header [] c h)
        | exact ih _ _ c hc

/-- `mergeChunkRow` leaves the DataBlock table unchanged. -/
theorem mergeChunkRow_dataBlocks (st : GraphState) (row : ChunkRow) :
    (mergeChunkRow st row).dataBlocks = st.dataBlocks := by
  unfold mergeChunkRow
  split_ifs <;> rfl

/-- `mergePage` leaves the DataBlock table unchanged. -/
theorem mergePage_dataBlocks (st : GraphState) (n : String) :
    (mergePage st n).dataBlocks = st.dataBlocks := by
  unfold mergePage
  split_ifs <;> rfl

/-- `mergeTag` leaves the DataBlock table unchanged. -/
theorem mergeTag_dataBlocks (st : GraphState) (n : String) :
    (mergeTag st n).dataBlocks = st.dataBlocks := by
  unfold mergeTag
  split_ifs <;> rfl

/-- `mergeAttrRow` leaves the DataBlock table unchanged. -/
theorem mergeAttrRow_dataBlocks (st : GraphState) (row : AttrRow) :
    (mergeAttrRow st row).dataBlocks = st.dataBlocks := by
  unfold mergeAttrRow
  split_ifs <;> rfl

/-- Folds whose step preserves the DataBlock table preserve it. -/
theorem foldl_dataBlocks {α : Type} (f : GraphState → α → GraphState)
    (hf : ∀ s a, (f s a).dataBlocks = s.dataBlocks) :
    ∀ (l : List α) (s : GraphState), (l.foldl f s).dataBlocks = s.dataBlocks := by
  intro l
  induction l with
  | nil => intro s; rfl
  | cons a rest ih => intro s; rw [List.foldl_cons, ih, hf]

/-- A row of `mergeDataRow`'s table either was already there or carries the
merged row's id. -/
theorem mergeDataRow_mem (s : GraphState) (r0 : DataRow) :
    ∀ row ∈ (mergeDataRow s r0).dataBlocks,
      row ∈ s.dataBlocks ∨ row.id = r0.id := by
  intro row hrow
  unfold mergeDataRow at hrow
  split_ifs at hrow
  · simp only [List.mem_map] at hrow
    obtain ⟨r, hr, heq⟩ := hrow
    by_cases hid : r.id = r0.id
    · right
      rw [← heq, if_pos hid]
    · left
      rw [← heq, if_neg hid]
      exact hr
  · rcases List.mem_append.mp hrow with h | h
    · exact Or.inl h
    · right
      rw [List.mem_singleton.mp h]

/-- `idxLink` leaves the DataBlock table unchanged. -/
theorem idxLink_dataBlocks (cid : String) (s : GraphState) (l : String) :
    (idxLink cid s l).dataBlocks = s.dataBlocks := by
  simp only [idxLink]
  rw [mergePage_dataBlocks]

/-- `idxTag` leaves the DataBlock table unchanged. -/
theorem idxTag_dataBlocks (cid : String) (s : GraphState) (t : String) :
    (idxTag cid s t).dataBlocks = s.dataBlocks := by
  simp only [idxTag]
  rw [mergeTag_dataBlocks]

/-- `idxTrans` leaves the DataBlock table unchanged. -/
theorem idxTrans_dataBlocks (cid : String) (s : GraphState) (tr : PTransclusion) :
    (idxTrans cid s tr).dataBlocks = s.dataBlocks := by
  simp only [idxTrans]
  rw [mergePage_dataBlocks]

/-- `idxAttr` leaves the DataBlock table unchanged. -/
theorem idxAttr_dataBlocks (cid : String) (s : GraphState) (a : PInlineAttr) :
    (idxAttr cid s a).dataBlocks = s.dataBlocks := by
  simp only [idxAttr]
  rw [mergeAttrRow_dataBlocks]

/-- A row of `idxBlock`'s table either was already there or carries the id
`blockIdOf cid n` of the processed data block. -/
theorem idxBlock_mem (cid : String) (s : GraphState) (ib : Nat × PDataBlock) :
    ∀ row ∈ (idxBlock cid s ib).dataBlocks,
      row ∈ s.dataBlocks ∨ row.id = blockIdOf cid ib.1 := by
  intro row hrow
  have hrow2 : row ∈ (mergeDataRow s
      (DataRow.mk (blockIdOf cid ib.1) ib.2.tag (dataSerialize ib.2.data)
        ib.2.file_path)).dataBlocks := by
    simp only [idxBlock] at hrow
    rw [mergeTag_dataBlocks] at hrow
    exact hrow
  exact mergeDataRow_mem _ _ row hrow2

/-- Membership invariant for a graph-state fold. -/
theorem foldl_mem_dataBlocks {α : Type} (Q : DataRow → Prop) :
    ∀ (l : List α) (f : GraphState → α → GraphState),
      (∀ s a, a ∈ l → ∀ row ∈ (f s a).dataBlocks, row ∈ s.dataBlocks ∨ Q row) →
      ∀ (s : GraphState), ∀ row ∈ (l.foldl f s).dataBlocks,
        row ∈ s.dataBlocks ∨ Q row := by
  intro l
  induction l with
  | nil => intro f _ s row h; exact Or.inl h
  | cons a rest ih =>
    intro f hf s row h
    rw [List.foldl_cons] at h
    rcases ih f (fun s2 b hb => hf s2 b (List.mem_cons_of_mem a hb)) (f s a) row h with
      h1 | h1
    · exact hf s a (List.mem_cons_self a rest) row h1
    · exact Or.inr h1

/-- Every DataBlock row created by `indexOneChunk` has an id of the form
`blockIdOf (chunkIdOf chunk) n`. -/
theorem indexOneChunk_dataBlocks_mem (e : Bool) (em : List (List ℚ))
    (st : GraphState) (i : Nat) (ch : PChunk) :
    ∀ row ∈ (indexOneChunk e em st i ch).dataBlocks,
      row ∈ st.dataBlocks ∨ ∃ n, row.id = blockIdOf (chunkIdOf ch) n := by
  intro row hrow
  simp only [indexOneChunk] at hrow
  have hbase := foldl_mem_dataBlocks
    (fun r => ∃ n, r.id = blockIdOf (chunkIdOf ch) n)
    (ch.data_blocks.enum) (idxBlock (chunkIdOf ch))
    (fun s ib _ r hr => (idxBlock_mem (chunkIdOf ch) s ib r hr).imp id
      (fun hid => ⟨ib.1, hid⟩))
    _ row hrow
  rcases hbase with h1 | h1
  · left
    rw [foldl_dataBlocks (idxAttr (chunkIdOf ch)) (idxAttr_dataBlocks (chunkIdOf ch))]
      at h1
    rw [foldl_dataBlocks (idxTrans (chunkIdOf ch)) (idxTrans_dataBlocks (chunkIdOf ch))]
      at h1
    split_ifs at h1 <;>
      rw [foldl_dataBlocks (idxTag (chunkIdOf ch)) (idxTag_dataBlocks (chunkIdOf ch)),
        foldl_dataBlocks (idxLink (chunkIdOf ch)) (idxLink_dataBlocks (chunkIdOf ch)),
        mergeChunkRow_dataBlocks] at h1 <;>
      exact h1
  · exact Or.inr h1

/-- `indexOneChunk` on a chunk without data blocks leaves the DataBlock
table unchanged. -/
theorem indexOneChunk_dataBlocks_empty (e : Bool) (em : List (List ℚ))
    (st : GraphState) (i : Nat) (ch : PChunk) (h : ch.data_blocks = []) :
    (indexOneChunk e em st i ch).dataBlocks = st.dataBlocks := by
  simp only [indexOneChunk, h, List.enum_nil, List.foldl_nil]
  rw [foldl_dataBlocks (idxAttr (chunkIdOf ch)) (idxAttr_dataBlocks (chunkIdOf ch))]
  rw [foldl_dataBlocks (idxTrans (chunkIdOf ch)) (idxTrans_dataBlocks (chunkIdOf ch))]
  split_ifs <;>
    rw [foldl_dataBlocks (idxTag (chunkIdOf ch)) (idxTag_dataBlocks (chunkIdOf ch)),
      foldl_dataBlocks (idxLink (chunkIdOf ch)) (idxLink_dataBlocks (chunkIdOf ch)),
      mergeChunkRow_dataBlocks]

/-- The second component of an enumerated pair is a list member. -/
theorem mem_of_mem_enum {α : Type} :
    ∀ (l : List α) (i : Nat) (a : α), (i, a) ∈ l.enum → a ∈ l := by
  intro l i a h
  have h2 := List.mem_enum_iff_getElem?.mp h
  obtain ⟨hlt, heq⟩ := List.getElem?_eq_some.mp h2
  have h3 : l[i] = a := heq
  exact h3 ▸ List.getElem_mem hlt

/-- A data-block id splits as the chunk id followed by a suffix. -/
theorem blockIdOf_split (cid : String) (n : Nat) :
    blockIdOf cid n = cid ++ ("#datablock#" ++ toString n) := by
  unfold blockIdOf
  exact String.append_assoc cid "#datablock#" (toString n)

/-- C10: every data block extracted from a file is attached to the file's
first chunk (later chunks carry none), so every DataBlock node id produced
by indexing the file's chunks extends the first chunk's id; and a file with
no content chunks but with data blocks yields exactly one empty-content
chunk that carries all of them. -/
theorem c10_data_blocks_attach_to_first_chunk
    (fp folder : String) (fm : FM) (raw : String) (tokens : List MDToken)
    (fdbs : List PDataBlock) :
    (∀ c ∈ (parseFileModel fp folder fm raw tokens fdbs).drop 1,
        c.data_blocks = []) ∧
      (∀ c0, (parseFileModel fp folder fm raw tokens fdbs).head? = some c0 →
        c0.data_blocks = fdbs ∧
        ∀ (e : Bool) (em : List (List ℚ)),
          ∀ row ∈ (indexChunks e em graphEmpty
              (parseFileModel fp folder fm raw tokens fdbs)).dataBlocks,
            ∃ suffix, row.id = chunkIdOf c0 ++ suffix) ∧
      (fdbs ≠ [] → parseFileModel fp folder fm raw tokens fdbs ≠ []) ∧
      (chunksWalk fp folder fm raw (tokens.any (fun t => t.ttype = "heading_open"))
          (stemOf fp) [] tokens = [] → fdbs ≠ [] →
        parseFileModel fp folder fm raw tokens fdbs =
          [dataOnlyChunk fp folder fm fdbs]) := by
  have hwalk := chunksWalk_data_blocks fp folder fm raw
    (tokens.any (fun t => t.ttype = "heading_open")) tokens (stemOf fp) []
  rcases hbase : chunksWalk fp folder fm raw
      (tokens.any (fun t => t.ttype = "heading_open")) (stemOf fp) [] tokens with
    _ | ⟨c, rest⟩
  · have hpf : parseFileModel fp folder fm raw tokens fdbs =
        if fdbs ≠ [] then [dataOnlyChunk fp folder fm fdbs] else [] := by
      simp only [parseFileModel]
      rw [hbase]
    by_cases hf : fdbs = []
    · subst hf
      rw [if_neg (by simp)] at hpf
      rw [hpf]
      refine ⟨by simp, by simp, fun h => absurd rfl h, fun _ h => absurd rfl h⟩
    · rw [if_pos hf] at hpf
      rw [hpf]
      refine ⟨by simp, ?_, fun _ => by simp, fun _ _ => rfl⟩
      intro c0 hc0
      have hc0e : c0 = dataOnlyChunk fp folder fm fdbs := (Option.some.inj hc0).symm
      subst hc0e
      refine ⟨rfl, ?_⟩
      intro e em row hrow
      have hone : indexChunks e em graphEmpty [dataOnlyChunk fp folder fm fdbs] =
          indexOneChunk e em graphEmpty 0 (dataOnlyChunk fp folder fm fdbs) := rfl
      rw [hone] at hrow
      rcases indexOneChunk_dataBlocks_mem e em graphEmpty 0
          (dataOnlyChunk fp folder fm fdbs) row hrow with h1 | ⟨n, h1⟩
      · exact absurd h1 (List.not_mem_nil row)
      · exact ⟨"#datablock#" ++ toString n, h1.trans (blockIdOf_split _ n)⟩
  · have hpf : parseFileModel fp folder fm raw tokens fdbs =
        { c with data_blocks := c.data_blocks ++ fdbs } :: rest := by
      simp only [parseFileModel]
      rw [hbase]
    have hcdb : c.data_blocks = [] :=
      hwalk c (hbase ▸ List.mem_cons_self c rest)
    have hrest : ∀ c2 ∈ rest, c2.data_blocks = [] := fun c2 h2 =>
      hwalk c2 (hbase ▸ List.mem_cons_of_mem c h2)
    rw [hpf]
    refine ⟨?_, ?_, fun _ => by simp, ?_⟩
    · intro c2 h2
      exact hrest c2 (by simpa using h2)
    · intro c0 hc0
      have hc0e : c0 = { c with data_blocks := c.data_blocks ++ fdbs } :=
        (Option.some.inj hc0).symm
      subst hc0e
      constructor
      · simp [hcdb]
      · intro e em row hrow
        have hf : ∀ (s : GraphState) (ic : Nat × PChunk),
            ic ∈ ({ c with data_blocks := c.data_blocks ++ fdbs } :: rest).enum →
            ∀ r ∈ ((fun s ic => indexOneChunk e em s ic.1 ic.2) s ic).dataBlocks,
              r ∈ s.dataBlocks ∨ (fun r : DataRow => ∃ suffix, r.id =
                chunkIdOf { c with data_blocks := c.data_blocks ++ fdbs } ++ suffix) r := by
          intro s ic hic r hr
          have hmem := mem_of_mem_enum _ ic.1 ic.2 hic
          rcases List.mem_cons.mp hmem with h2 | h2
          · rcases indexOneChunk_dataBlocks_mem e em s ic.1 ic.2 r hr with h3 | ⟨n, h3⟩
            · exact Or.inl h3
            · refine Or.inr ⟨"#datablock#" ++ toString n, ?_⟩
              rw [h3, h2, blockIdOf_split]
          · rw [indexOneChunk_dataBlocks_empty e em s ic.1 ic.2 (hrest ic.2 h2)] at hr
            exact Or.inl hr
        unfold indexChunks at hrow
        rcases foldl_mem_dataBlocks _ _ _ hf graphEmpty row hrow with h1 | h1
        · exact absurd h1 (List.not_mem_nil row)
        · exact h1
    · intro hnil
      exact absurd hnil (by simp)

/-- C10 (witness): a file with no content chunks and one data block. -/
theorem c10_witness :
    parseFileModel "d.md" "" [] "" [] [exC10Block] =
        [dataOnlyChunk "d.md" "" [] [exC10Block]] ∧
      (dataOnlyChunk "d.md" "" [] [exC10Block]).data_blocks = [exC10Block] := by
  have h := c10_data_blocks_attach_to_first_chunk "d.md" "" [] "" [] [exC10Block]
  refine ⟨h.2.2.2 rfl (by simp), ?_⟩
  have h2 := h.2.1 (dataOnlyChunk "d.md" "" [] [exC10Block]) ?_
  · exact h2.1
  · rw [h.2.2.2 rfl (by simp)]
    rfl

/-- A fold whose step adds `g` of the element sums the mapped list. -/
theorem foldl_accum_sum {α : Type} (f : ℚ → α → ℚ) (g : α → ℚ)
    (hf : ∀ acc t, f acc t = acc + g t) :
    ∀ (l : List α) (a : ℚ), l.foldl f a = a + (l.map g).sum := by
  intro l
  induction l with
  | nil => intro a; simp
  | cons t ts ih =>
    intro a
    rw [List.foldl_cons, ih, hf, List.map_cons, List.sum_cons, add_assoc]

/-- The candidate predicates of code and claim agree. -/
theorem candMatches_eq (terms : List String) (kw : String) (c : ChunkRow) :
    candMatches terms kw c = amendedCand terms kw c := rfl

/-- One BM25 loop iteration equals the claim's term-score formula added to
the accumulator (a skipped zero-`tf` term contributes `0`). -/
theorem bm25TermAccum_eq (st : GraphState) (lg : ℚ → ℚ) (n avgdl : ℚ)
    (c : ChunkRow) (acc : ℚ) (term : String) :
    bm25TermAccum st lg n avgdl c acc term =
      acc + specTermScore lg (specTF st term c) ((specDf st term : ℕ) : ℚ) n
        ((c.content.data.length : ℕ) : ℚ) avgdl := by
  simp only [bm25TermAccum, specTermScore, specTF]
  rw [show ((dfOf st term : ℕ) : ℚ) = ((specDf st term : ℕ) : ℚ) from rfl]
  rw [show (strCount (lowerStr c.content) term : ℚ) +
      (3/2) * (strCount (lowerStr c.file_path) term : ℚ) +
      2 * (strCount (lowerStr c.header) term : ℚ) =
      (strCount (lowerStr c.content) term : ℚ) +
      (strCount (lowerStr c.file_path) term : ℚ) * (3/2) +
      (strCount (lowerStr c.header) term : ℚ) * 2 from by ring]
  split_ifs with h1 h2 h3 h4 h5 h6 <;>
    first
      | rfl
      | (rename_i hz
         rw [hz]
         simp)
      | (rw [h3]; simp)
      | (rw [h4]; simp)
      | (rw [h5]; simp)
      | (rw [h6]; simp)

/-- The code's per-chunk BM25 score equals the claim's sum of term scores. -/
theorem scoreChunk_eq_spec (st : GraphState) (lg : ℚ → ℚ) (terms : List String)
    (n avgdl : ℚ) (c : ChunkRow) :
    scoreChunk st lg terms n avgdl c =
      specChunkScore st lg (specDf st) terms n avgdl c := by
  unfold scoreChunk specChunkScore
  rw [foldl_accum_sum (bm25TermAccum st lg n avgdl c)
    (fun t => specTermScore lg (specTF st t c) ((specDf st t : ℕ) : ℚ) n
      ((c.content.data.length : ℕ) : ℚ) avgdl)
    (fun acc t => bm25TermAccum_eq st lg n avgdl c acc t) terms 0]
  rw [zero_add]

/-- C2 (amended): the unscoped keyword search equals the claim's pipeline
with the single amendment that for queries of at most one term the
candidates are the chunks containing the *raw* keyword case-sensitively
(the code's single-term Cypher branch), rather than case-insensitively. -/
theorem c2_keyword_search_amended (st : GraphState) (lg : ℚ → ℚ)
    (keyword : String) :
    keywordSearch st lg keyword none = kwSpecAmended st lg keyword := by
  have hcand : candidateChunks st none (splitWs (lowerStr keyword)) keyword
      = st.chunks.filter
          (fun c => amendedCand (splitWs (lowerStr keyword)) keyword c) := rfl
  simp only [keywordSearch, kwSpecAmended]
  rw [show totalDocs st none = st.chunks.length from rfl, hcand]
  split_ifs with h1 h2
  · rfl
  · rw [h2]
    rfl
  · have havg : ∀ l : List ChunkRow,
        (l.foldl (fun s c => s + (c.content.data.length : ℚ)) 0) /
          ((l.length : ℕ) : ℚ) = specAvgdl l := by
      intro l
      rw [specAvgdl, foldl_accum_sum _ (fun c => ((c.content.data.length : ℕ) : ℚ))
        (fun acc c => rfl) l 0, zero_add]
    rw [havg]
    refine congrArg
      (fun l : List KWRow => (sortByDesc (fun r => r.bm25_score) l).take 50) ?_
    refine List.map_congr_left (fun c _ => ?_)
    simp only [scoreChunk_eq_spec]

/-- Nat version of the accumulating fold as a mapped sum. -/
theorem foldl_add_count {α : Type} (g : α → ℕ) :
    ∀ (l : List α) (a : ℕ), l.foldl (fun n x => n + g x) a = a + (l.map g).sum := by
  intro l
  induction l with
  | nil => intro a; simp
  | cons t ts ih =>
    intro a
    rw [List.foldl_cons, ih, List.map_cons, List.sum_cons, Nat.add_assoc]

/-- Summing an indicator counts the matching elements. -/
theorem sum_map_ite_one {α : Type} (p : α → Bool) :
    ∀ l : List α, (l.map (fun x => if p x then 1 else 0)).sum = (l.filter p).length := by
  intro l
  induction l with
  | nil => rfl
  | cons a t ih =>
    rw [List.map_cons, List.sum_cons, List.filter_cons]
    cases hp : p a <;> simp [hp, ih, Nat.add_comm]

/-- A `flatMap` producing `[c]` or `[]` per element is a `filter`. -/
theorem flatMap_eq_filter {α : Type} (f : α → List α) (p : α → Bool) :
    ∀ l : List α, (∀ c ∈ l, f c = if p c then [c] else []) → l.flatMap f = l.filter p := by
  intro l
  induction l with
  | nil => intro _; rfl
  | cons a t ih =>
    intro h
    rw [List.flatMap_cons, h a (by simp), List.filter_cons,
      ih (fun c hc => h c (List.mem_cons_of_mem a hc))]
    cases hp : p a <;> simp [hp]

/-- The scoped `MATCH` row count for a chunk is positive exactly when the
chunk is in scope in the claim's sense. -/
theorem scopedMatchCount_pos_iff (st : GraphState) (s : String) (c : ChunkRow) :
    0 < scopedMatchCount st s c ↔ specInScope st s c = true := by
  rw [scopedMatchCount, foldl_add_count
    (fun e => (st.folders.filter (fun f => f.path = e.2 ∧ inScopeFolder s f.path)).length)
    (st.inFolder.filter (fun e => e.1 = c.id)) 0, zero_add]
  constructor
  · intro h
    by_contra hns
    have hz : ∀ x ∈ (st.inFolder.filter (fun e => e.1 = c.id)).map
        (fun e => (st.folders.filter
          (fun f => f.path = e.2 ∧ inScopeFolder s f.path)).length), x = 0 := by
      intro x hx
      obtain ⟨e, he, rfl⟩ := List.mem_map.mp hx
      obtain ⟨heIn, heId⟩ := List.mem_filter.mp he
      by_contra hxne
      obtain ⟨f, hf⟩ := List.exists_mem_of_ne_nil _
        (List.ne_nil_of_length_pos (Nat.pos_of_ne_zero hxne))
      obtain ⟨hfIn, hfCond⟩ := List.mem_filter.mp hf
      simp only [decide_eq_true_eq] at heId hfCond
      apply hns
      rw [specInScope, List.any_eq_true]
      refine ⟨e, heIn, ?_⟩
      simp only [decide_eq_true_eq]
      refine ⟨heId, ?_, ?_⟩
      · rw [List.any_eq_true]
        exact ⟨f, hfIn, by simp [hfCond.1]⟩
      · exact hfCond.1 ▸ hfCond.2
    have hz0 := List.sum_eq_zero hz
    rw [hz0] at h
    exact Nat.lt_irrefl 0 h
  · intro h
    rw [specInScope, List.any_eq_true] at h
    obtain ⟨e, heIn, hcond⟩ := h
    simp only [decide_eq_true_eq] at hcond
    obtain ⟨heId, hfol, hscope⟩ := hcond
    rw [List.any_eq_true] at hfol
    obtain ⟨f, hfIn, hfpath⟩ := hfol
    simp only [decide_eq_true_eq] at hfpath
    have hmem : e ∈ st.inFolder.filter (fun e => e.1 = c.id) :=
      List.mem_filter.mpr ⟨heIn, by simp [heId]⟩
    have hgpos : 0 < (st.folders.filter
        (fun f2 => f2.path = e.2 ∧ inScopeFolder s f2.path)).length := by
      have hfmem : f ∈ st.folders.filter
          (fun f2 => f2.path = e.2 ∧ inScopeFolder s f2.path) :=
        List.mem_filter.mpr ⟨hfIn, by
          simp only [decide_eq_true_eq]
          exact ⟨hfpath, hfpath ▸ hscope⟩⟩
      exact List.length_pos.mpr (List.ne_nil_of_mem hfmem)
    exact lt_of_lt_of_le hgpos
      (List.single_le_sum (fun x _ => Nat.zero_le x) _
        (List.mem_map.mpr ⟨e, hmem, rfl⟩))

/-- C3 (amended): with a scope, `keyword_search` equals the claim's scoped
pipeline amended so that each `df_t` is the *global* document frequency
(the code's `df_query` has no scope filter), while `N` and the candidate
set are scope-restricted as claimed.  The hypothesis — no chunk has more
than one scoped `IN_FOLDER` match row — holds in any store where a chunk
sits in one folder and folder rows are unique, and in particular in the
concrete store of the witness. -/
theorem c3_keyword_search_scoped_amended (st : GraphState) (lg : ℚ → ℚ)
    (keyword s : String)
    (hmc : ∀ c ∈ st.chunks, scopedMatchCount st s c ≤ 1) :
    keywordSearch st lg keyword (some s) = kwSpecScopedAmended st lg keyword s := by
  have hsc : ∀ c ∈ st.chunks,
      scopedMatchCount st s c = if specInScope st s c then 1 else 0 := by
    intro c hc
    rcases Nat.lt_or_ge 0 (scopedMatchCount st s c) with hpos | hz
    · rw [if_pos ((scopedMatchCount_pos_iff st s c).mp hpos)]
      have := hmc c hc
      omega
    · have h0 : scopedMatchCount st s c = 0 := Nat.le_zero.mp hz
      rw [h0, if_neg (fun hsp =>
        absurd ((scopedMatchCount_pos_iff st s c).mpr hsp) (by omega))]
  have hN : totalDocs st (some s) =
      (st.chunks.filter (fun c => specInScope st s c)).length := by
    simp only [totalDocs]
    rw [foldl_add_count (fun c => scopedMatchCount st s c) st.chunks 0, zero_add,
      List.map_congr_left hsc]
    exact sum_map_ite_one (fun c => specInScope st s c) st.chunks
  have hcand : candidateChunks st (some s) (splitWs (lowerStr keyword)) keyword
      = st.chunks.filter (fun c =>
          amendedCand (splitWs (lowerStr keyword)) keyword c ∧ specInScope st s c) := by
    rw [show candidateChunks st (some s) (splitWs (lowerStr keyword)) keyword
        = st.chunks.flatMap (fun c =>
            if candMatches (splitWs (lowerStr keyword)) keyword c then
              List.replicate (scopedMatchCount st s c) c
            else []) from rfl]
    apply flatMap_eq_filter
    intro c hc
    rw [candMatches_eq, hsc c hc]
    cases ha : amendedCand (splitWs (lowerStr keyword)) keyword c <;>
      cases hi : specInScope st s c <;> simp [ha, hi]
  have havg : ∀ l : List ChunkRow,
      (l.foldl (fun a c => a + (c.content.data.length : ℚ)) 0) /
        ((l.length : ℕ) : ℚ) = specAvgdl l := by
    intro l
    rw [specAvgdl, foldl_accum_sum _ (fun c => ((c.content.data.length : ℕ) : ℚ))
      (fun acc c => rfl) l 0, zero_add]
  simp only [keywordSearch, kwSpecScopedAmended]
  rw [hN, hcand]
  split_ifs with h1 h2
  · rfl
  · rw [h2]
    rfl
  · rw [havg]
    refine congrArg
      (fun l : List KWRow => (sortByDesc (fun r => r.bm25_score) l).take 50) ?_
    refine List.map_congr_left (fun c _ => ?_)
    simp only [scoreChunk_eq_spec]

/-- C3 witness: the amended theorem applied to the concrete two-chunk store,
with `math.log` instantiated as the identity. -/
theorem c3_witness :
    (∀ c ∈ exC3State.chunks, scopedMatchCount exC3State "A" c ≤ 1) ∧
      keywordSearch exC3State (fun x => x) "database" (some "A") =
        kwSpecScopedAmended exC3State (fun x => x) "database" "A" :=
  ⟨by decide, c3_keyword_search_scoped_amended exC3State (fun x => x) "database" "A"
    (by decide)⟩

/-! ## C7 proof infrastructure -/

/-- Total lookup in `rrf_scores` (`rrf_scores.get(chunk_id, 0.0)`). -/
def scoreOf (al : List (String × ℚ)) (id : String) : ℚ :=
  (alLookup al id).getD 0

/-- The total `1/(60+rank)` contribution of one ranking (given by its id
list, ranks starting at `rank`) to one chunk id; empty ids are skipped. -/
def rankContribIds : Nat → List String → String → ℚ
  | _, [], _ => 0
  | rank, s :: rest, id =>
    (if s = id ∧ s ≠ "" then 1 / (60 + (rank : ℚ)) else 0) +
      rankContribIds (rank + 1) rest id

/-- A key-preserving map leaves the key list unchanged. -/
theorem keys_map_keyfix {β : Type} (al : List (String × β))
    (f : String × β → String × β) (hf : ∀ p, (f p).1 = p.1) :
    (al.map f).map Prod.fst = al.map Prod.fst := by
  rw [List.map_map]
  exact List.map_congr_left (fun p _ => hf p)

/-- Key membership tests agree on association lists with equal key lists. -/
theorem any_key_eq {β γ : Type} (al : List (String × β)) (bl : List (String × γ))
    (h : al.map Prod.fst = bl.map Prod.fst) (k : String) :
    al.any (fun p => p.1 = k) = bl.any (fun p => p.1 = k) := by
  have h1 : ∀ {δ : Type} (l : List (String × δ)),
      (l.any (fun p => p.1 = k) = true) ↔ k ∈ l.map Prod.fst := by
    intro δ l
    rw [List.any_eq_true]
    constructor
    · rintro ⟨x, hx, hxk⟩
      exact List.mem_map.mpr ⟨x, hx, of_decide_eq_true hxk⟩
    · intro hm
      obtain ⟨x, hx, hxk⟩ := List.mem_map.mp hm
      exact ⟨x, hx, decide_eq_true hxk⟩
  rw [Bool.eq_iff_iff, h1 al, h1 bl, h]

/-- Lookup after a key-preserving entry update. -/
theorem find?_keyfix {β : Type} (al : List (String × β)) (id : String)
    (f : String × β → String × β) (hf : ∀ p, (f p).1 = p.1) :
    (al.map f).find? (fun p => p.1 = id) =
      (al.find? (fun p => p.1 = id)).map f := by
  rw [List.find?_map]
  have hc : ((fun p : String × β => decide (p.1 = id)) ∘ f) =
      (fun p => decide (p.1 = id)) := by
    funext p
    simp [Function.comp, hf p]
  rw [hc]

/-- `alAddScore` adds `v` at key `k` and leaves other keys' scores alone. -/
theorem scoreOf_alAddScore (al : List (String × ℚ)) (k : String) (v : ℚ)
    (id : String) :
    scoreOf (alAddScore al k v) id = scoreOf al id + (if id = k then v else 0) := by
  rw [alAddScore]
  by_cases hmem : (al.any fun p => decide (p.1 = k)) = true
  · rw [if_pos hmem, scoreOf, alLookup,
      find?_keyfix al id (fun p => if p.1 = k then (p.1, p.2 + v) else p)
        (fun p => by by_cases h : p.1 = k <;> simp [h])]
    rcases hf : al.find? (fun p => p.1 = id) with _ | p0
    · rw [scoreOf, alLookup, hf]
      by_cases hik : id = k
      · exfalso
        obtain ⟨x, hx, hxk⟩ := List.any_eq_true.mp hmem
        have hxid : x.1 = id := by rw [of_decide_eq_true hxk, hik]
        have h2 := List.find?_eq_none.mp hf x hx
        simp [hxid] at h2
      · simp [hik]
    · have hp0 : p0.1 = id := by
        have h2 := List.find?_some hf
        simpa using h2
      rw [scoreOf, alLookup, hf]
      by_cases hik : id = k
      · simp [Option.map, hp0.trans hik, hik]
      · have hpk : ¬ p0.1 = k := fun h => hik (hp0.symm.trans h)
        simp [Option.map, hpk, hik]
  · rw [if_neg hmem, scoreOf, alLookup, List.find?_append]
    rcases hf : al.find? (fun p => p.1 = id) with _ | p0
    · rw [hf, show scoreOf al id = 0 from by rw [scoreOf, alLookup, hf]; rfl]
      by_cases hik : id = k
      · simp [List.find?, hik, Option.or]
      · have hki : ¬ (k = id) := fun h => hik h.symm
        simp [List.find?, hki, hik, Option.or]
    · have hp0 : p0.1 = id := by
        have h2 := List.find?_some hf
        simpa using h2
      by_cases hik : id = k
      · exfalso
        apply hmem
        rw [List.any_eq_true]
        exact ⟨p0, List.mem_of_find?_eq_some hf, decide_eq_true (hp0.trans hik)⟩
      · rw [hf, show scoreOf al id = p0.2 from by rw [scoreOf, alLookup, hf]; rfl]
        simp [Option.or, hik]

/-- Key list of `alAddScore`: unchanged on update, extended on append. -/
theorem keys_alAddScore (al : List (String × ℚ)) (k : String) (v : ℚ) :
    (alAddScore al k v).map Prod.fst =
      if (al.any fun p => p.1 = k) then al.map Prod.fst
      else al.map Prod.fst ++ [k] := by
  rw [alAddScore]
  split_ifs with h
  · exact keys_map_keyfix al _ (fun p => by by_cases hp : p.1 = k <;> simp [hp])
  · simp

/-- Key list of `alSet`: unchanged on update, extended on append. -/
theorem keys_alSet {β : Type} (al : List (String × β)) (k : String) (v : β) :
    (alSet al k v).map Prod.fst =
      if (al.any fun p => p.1 = k) then al.map Prod.fst
      else al.map Prod.fst ++ [k] := by
  rw [alSet]
  split_ifs with h
  · exact keys_map_keyfix al _ (fun p => by by_cases hp : p.1 = k <;> simp [hp])
  · simp

/-- A key absent from the keys makes the membership test false. -/
theorem any_key_false {β : Type} (al : List (String × β)) (k : String)
    (h : ¬ (al.any fun p => p.1 = k) = true) : k ∉ al.map Prod.fst := by
  intro hmem
  apply h
  obtain ⟨x, hx, hxk⟩ := List.mem_map.mp hmem
  exact List.any_eq_true.mpr ⟨x, hx, decide_eq_true hxk⟩

/-- `alAddScore` preserves distinctness of keys. -/
theorem nodup_keys_alAddScore (al : List (String × ℚ)) (k : String) (v : ℚ)
    (h : (al.map Prod.fst).Nodup) :
    ((alAddScore al k v).map Prod.fst).Nodup := by
  rw [keys_alAddScore]
  split_ifs with hm
  · exact h
  · have hk := any_key_false al k hm
    simp [List.nodup_append, h, hk]

/-- Every entry of `alSet al k v` satisfies `P` when all entries of `al` do
and the fresh entry does. -/
theorem alSet_forall {β : Type} (P : String × β → Prop) (al : List (String × β))
    (k : String) (v : β) (hal : ∀ p ∈ al, P p)
    (hv : ∀ s : String, s = k → P (s, v)) : ∀ p ∈ alSet al k v, P p := by
  intro p hp
  rw [alSet] at hp
  split_ifs at hp with hm
  · obtain ⟨q, hq, hqe⟩ := List.mem_map.mp hp
    by_cases hqk : q.1 = k
    · rw [if_pos hqk] at hqe
      exact hqe ▸ hv q.1 hqk
    · rw [if_neg hqk] at hqe
      exact hqe ▸ hal q hq
  · rcases List.mem_append.mp hp with h | h
    · exact hal p h
    · rw [List.mem_singleton] at h
      exact h ▸ hv k rfl

/-- Every entry of a keyed in-place update satisfies `P` when the old
entries do and the updater preserves it. -/
theorem map_update_forall {β : Type} (P : String × β → Prop)
    (al : List (String × β)) (k : String) (g : String × β → β)
    (hal : ∀ p ∈ al, P p) (hg : ∀ p ∈ al, p.1 = k → P (p.1, g p)) :
    ∀ p ∈ al.map (fun p => if p.1 = k then (p.1, g p) else p), P p := by
  intro p hp
  obtain ⟨q, hq, hqe⟩ := List.mem_map.mp hp
  by_cases hqk : q.1 = k
  · rw [if_pos hqk] at hqe
    exact hqe ▸ hg q hq hqk
  · rw [if_neg hqk] at hqe
    exact hqe ▸ hal q hq

/-- Invariant of the keyword pass: distinct score keys, identical key lists
for `rrf_scores` and `chunk_data`, and every data entry keyed by its chunk's
id. -/
theorem rrfKwLoop_inv (l : List KWRow) :
    ∀ (rank : Nat) (scores : List (String × ℚ)) (data : List (String × RRFData)),
    (scores.map Prod.fst).Nodup →
    scores.map Prod.fst = data.map Prod.fst →
    (∀ p ∈ data, p.2.chunk.id = p.1) →
    (((rrfKwLoop rank scores data l).1.map Prod.fst).Nodup ∧
     (rrfKwLoop rank scores data l).1.map Prod.fst =
       (rrfKwLoop rank scores data l).2.map Prod.fst ∧
     (∀ p ∈ (rrfKwLoop rank scores data l).2, p.2.chunk.id = p.1)) := by
  induction l with
  | nil => intro rank scores data h1 h2 h3; exact ⟨h1, h2, h3⟩
  | cons r rest ih =>
    intro rank scores data h1 h2 h3
    simp only [rrfKwLoop]
    by_cases hc : r.col0.id = ""
    · rw [if_pos hc]
      exact ih (rank + 1) scores data h1 h2 h3
    · rw [if_neg hc]
      apply ih
      · exact nodup_keys_alAddScore scores r.col0.id _ h1
      · rw [keys_alAddScore, keys_alSet, any_key_eq scores data h2 r.col0.id]
        split_ifs with hm
        · exact h2
        · rw [h2]
      · apply alSet_forall _ data r.col0.id _ h3
        intro s hs
        exact hs ▸ rfl

/-- Invariant of the semantic pass, identical to the keyword pass's. -/
theorem rrfSemLoop_inv (l : List SemRow) :
    ∀ (rank : Nat) (scores : List (String × ℚ)) (data : List (String × RRFData)),
    (scores.map Prod.fst).Nodup →
    scores.map Prod.fst = data.map Prod.fst →
    (∀ p ∈ data, p.2.chunk.id = p.1) →
    (((rrfSemLoop rank scores data l).1.map Prod.fst).Nodup ∧
     (rrfSemLoop rank scores data l).1.map Prod.fst =
       (rrfSemLoop rank scores data l).2.map Prod.fst ∧
     (∀ p ∈ (rrfSemLoop rank scores data l).2, p.2.chunk.id = p.1)) := by
  induction l with
  | nil => intro rank scores data h1 h2 h3; exact ⟨h1, h2, h3⟩
  | cons r rest ih =>
    intro rank scores data h1 h2 h3
    simp only [rrfSemLoop]
    by_cases hc : r.col0.id = ""
    · rw [if_pos hc]
      exact ih (rank + 1) scores data h1 h2 h3
    · rw [if_neg hc]
      apply ih
      · exact nodup_keys_alAddScore scores r.col0.id _ h1
      · rw [keys_alAddScore, any_key_eq scores data h2 r.col0.id]
        split_ifs with hm
        · rw [h2,
            keys_map_keyfix data _ (fun p => by
              by_cases hp : p.1 = r.col0.id <;> simp [hp])]
        · rw [h2]
          simp
      · split_ifs with hm
        · apply map_update_forall _ data r.col0.id _ h3
          intro p hp hpk
          exact h3 p hp
        · intro p hp
          rcases List.mem_append.mp hp with h | h
          · exact h3 p h
          · rw [List.mem_singleton] at h
            exact h ▸ rfl

/-- Score accumulated by the keyword pass. -/
theorem rrfKwLoop_scoreOf (l : List KWRow) :
    ∀ (rank : Nat) (scores : List (String × ℚ)) (data : List (String × RRFData))
      (id : String),
    scoreOf (rrfKwLoop rank scores data l).1 id =
      scoreOf scores id + rankContribIds rank (l.map (fun r => r.col0.id)) id := by
  induction l with
  | nil =>
    intro rank scores data id
    simp [rrfKwLoop, rankContribIds]
  | cons r rest ih =>
    intro rank scores data id
    simp only [rrfKwLoop, List.map_cons, rankContribIds]
    by_cases hc : r.col0.id = ""
    · rw [if_pos hc, ih, if_neg (by simp [hc]), zero_add]
    · rw [if_neg hc, ih, scoreOf_alAddScore]
      by_cases hid : id = r.col0.id
      · rw [if_pos hid, if_pos ⟨hid.symm, hc⟩, add_assoc]
      · rw [if_neg hid, if_neg (fun hcon => hid hcon.1.symm), add_zero, zero_add]

/-- Score accumulated by the semantic pass. -/
theorem rrfSemLoop_scoreOf (l : List SemRow) :
    ∀ (rank : Nat) (scores : List (String × ℚ)) (data : List (String × RRFData))
      (id : String),
    scoreOf (rrfSemLoop rank scores data l).1 id =
      scoreOf scores id + rankContribIds rank (l.map (fun r => r.col0.id)) id := by
  induction l with
  | nil =>
    intro rank scores data id
    simp [rrfSemLoop, rankContribIds]
  | cons r rest ih =>
    intro rank scores data id
    simp only [rrfSemLoop, List.map_cons, rankContribIds]
    by_cases hc : r.col0.id = ""
    · rw [if_pos hc, ih, if_neg (by simp [hc]), zero_add]
    · rw [if_neg hc, ih, scoreOf_alAddScore]
      by_cases hid : id = r.col0.id
      · rw [if_pos hid, if_pos ⟨hid.symm, hc⟩, add_assoc]
      · rw [if_neg hid, if_neg (fun hcon => hid hcon.1.symm), add_zero, zero_add]

/-- A ranking containing no occurrence of `id` contributes nothing. -/
theorem rankContribIds_of_forall_ne (id : String) :
    ∀ (ids : List String) (n : Nat), (∀ s ∈ ids, s ≠ id) →
      rankContribIds n ids id = 0 := by
  intro ids
  induction ids with
  | nil => intro n _; rfl
  | cons s rest ih =>
    intro n h
    rw [rankContribIds, if_neg (fun hcon => h s (by simp) hcon.1), zero_add]
    exact ih (n + 1) (fun t ht => h t (List.mem_cons_of_mem s ht))

/-- Contributions are nonnegative. -/
theorem rankContribIds_nonneg (id : String) :
    ∀ (ids : List String) (n : Nat), 0 ≤ rankContribIds n ids id := by
  intro ids
  induction ids with
  | nil => intro n; exact le_refl 0
  | cons s rest ih =>
    intro n
    rw [rankContribIds]
    have h1 : (0:ℚ) ≤ (if s = id ∧ s ≠ "" then 1 / (60 + (n : ℚ)) else 0) := by
      split_ifs
      · positivity
      · exact le_refl 0
    exact add_nonneg h1 (ih (n + 1))

/-- The head of a ranking with a nonempty id receives a positive
contribution. -/
theorem rankContribIds_head_pos (id : String) (rest : List String) (n : Nat)
    (hne : id ≠ "") :
    0 < rankContribIds n (id :: rest) id := by
  rw [rankContribIds, if_pos ⟨rfl, hne⟩]
  have h1 : (0:ℚ) < 1 / (60 + (n : ℚ)) := by positivity
  exact lt_of_lt_of_le h1 (le_add_of_nonneg_right (rankContribIds_nonneg id rest (n + 1)))

/-- Under distinct nonempty ids, the contribution equals the claim's
`1/(60 + rank)` of the id's 1-based rank (`n`-based here; `findIdx?` is
0-based). -/
theorem rankContribIds_eq_findIdx (id : String) :
    ∀ (ids : List String) (n : Nat), ids.Nodup → (∀ s ∈ ids, s ≠ "") →
    rankContribIds n ids id =
      match ids.findIdx? (fun s => s = id) with
      | some p => 1 / (60 + ((n : ℚ) + (p : ℚ)))
      | none => 0 := by
  intro ids
  induction ids with
  | nil => intro n _ _; rfl
  | cons s rest ih =>
    intro n hnd hne
    rw [rankContribIds, List.findIdx?_cons]
    by_cases hs : s = id
    · have hsrest : s ∉ rest := (List.nodup_cons.mp hnd).1
      have hzero : rankContribIds (n + 1) rest id = 0 :=
        rankContribIds_of_forall_ne id rest (n + 1)
          (fun t ht hti => hsrest (by rw [hs, ← hti]; exact ht))
      rw [if_pos ⟨hs, hne s (by simp)⟩, hzero, add_zero, if_pos (by simp [hs])]
      push_cast
      norm_num
    · rw [if_neg (fun hcon => hs hcon.1), zero_add,
        ih (n + 1) (List.nodup_cons.mp hnd).2
          (fun t ht => hne t (List.mem_cons_of_mem s ht)),
        if_neg (by simp [hs]), List.findIdx?_succ]
      cases hfi : rest.findIdx? (fun t => t = id) with
      | none => rfl
      | some p =>
        simp only [Option.map_some']
        have harg : ((n + 1 : ℕ) : ℚ) + (p : ℚ) = (n : ℚ) + ((p + 1 : ℕ) : ℚ) := by
          push_cast
          ring
        rw [harg]

/-- `findIdx?` over a mapped list. -/
theorem findIdx?_map_eq {α : Type} (f : α → String) (id : String) :
    ∀ l : List α,
      (l.map f).findIdx? (fun s => s = id) = l.findIdx? (fun r => f r = id) := by
  intro l
  induction l with
  | nil => rfl
  | cons a t ih =>
    rw [List.map_cons, List.findIdx?_cons, List.findIdx?_cons,
      List.findIdx?_succ, List.findIdx?_succ, ih]

/-- The accumulated score of any id after both passes. -/
theorem scoreOf_rrfAccum (kw : List KWRow) (sem : List SemRow) (id : String) :
    scoreOf (rrfAccum kw sem).1 id =
      rankContribIds 1 (kw.map (fun r => r.col0.id)) id +
        rankContribIds 1 (sem.map (fun r => r.col0.id)) id := by
  simp only [rrfAccum]
  rw [rrfSemLoop_scoreOf, rrfKwLoop_scoreOf,
    show scoreOf [] id = 0 from rfl, zero_add]

/-- Under distinct nonempty ids in each ranking, the accumulated score is
exactly the claim's RRF score. -/
theorem scoreOf_accum_eq_spec (kw : List KWRow) (sem : List SemRow) (id : String)
    (hkwnd : (kw.map (fun r => r.col0.id)).Nodup)
    (hsemnd : (sem.map (fun r => r.col0.id)).Nodup)
    (hkwne : ∀ r ∈ kw, r.col0.id ≠ "")
    (hsemne : ∀ r ∈ sem, r.col0.id ≠ "") :
    scoreOf (rrfAccum kw sem).1 id = rrfSpecScore kw sem id := by
  rw [scoreOf_rrfAccum,
    rankContribIds_eq_findIdx id (kw.map (fun r => r.col0.id)) 1 hkwnd
      (fun s hs => by
        obtain ⟨r, hr, hre⟩ := List.mem_map.mp hs
        exact hre ▸ hkwne r hr),
    rankContribIds_eq_findIdx id (sem.map (fun r => r.col0.id)) 1 hsemnd
      (fun s hs => by
        obtain ⟨r, hr, hre⟩ := List.mem_map.mp hs
        exact hre ▸ hsemne r hr),
    findIdx?_map_eq (fun r => r.col0.id) id kw,
    findIdx?_map_eq (fun r => r.col0.id) id sem, rrfSpecScore]
  cases kw.findIdx? (fun r => r.col0.id = id) <;>
    cases sem.findIdx? (fun r => r.col0.id = id) <;>
    · push_cast
      ring_nf

/-- Lookup of a present key under distinct keys finds that entry. -/
theorem alLookup_of_mem_nodup {β : Type} :
    ∀ (al : List (String × β)) (p : String × β), p ∈ al →
      (al.map Prod.fst).Nodup → alLookup al p.1 = some p.2 := by
  intro al
  induction al with
  | nil => intro p hp _; exact absurd hp (List.not_mem_nil p)
  | cons q t ih =>
    intro p hp hnd
    rcases List.mem_cons.mp hp with h | h
    · rw [h, alLookup, List.find?_cons_of_pos _ (by simp)]
      rfl
    · have hnd2 : (q.1 :: t.map Prod.fst).Nodup := by
        rw [List.map_cons] at hnd
        exact hnd
      have hq : q.1 ∉ t.map Prod.fst := (List.nodup_cons.mp hnd2).1
      have hne : ¬ (q.1 = p.1) := by
        intro he
        exact hq (he ▸ List.mem_map.mpr ⟨p, h, rfl⟩)
      rw [alLookup, List.find?_cons_of_neg _ (by simp [hne])]
      have h3 := ih p h (List.nodup_cons.mp hnd2).2
      rw [alLookup] at h3
      exact h3

/-- Lookup of a key present in the key list succeeds, on an entry keyed by
it. -/
theorem alLookup_mem_keys {β : Type} (l : List (String × β)) (k : String)
    (h : k ∈ l.map Prod.fst) :
    ∃ p, p ∈ l ∧ p.1 = k ∧ alLookup l k = some p.2 := by
  rcases hf : l.find? (fun p => p.1 = k) with _ | p0
  · exfalso
    obtain ⟨x, hx, hxk⟩ := List.mem_map.mp h
    have h2 := List.find?_eq_none.mp hf x hx
    simp [hxk] at h2
  · have hp0 : p0.1 = k := by
      have h2 := List.find?_some hf
      simpa using h2
    exact ⟨p0, List.mem_of_find?_eq_some hf, hp0, by rw [alLookup, hf]; rfl⟩

/-- A min-fold is bounded by its seed. -/
theorem foldl_min_le_init : ∀ (l : List ℚ) (a : ℚ), l.foldl min a ≤ a := by
  intro l
  induction l with
  | nil => intro a; exact le_refl a
  | cons b t ih =>
    intro a
    exact le_trans (ih (min a b)) (min_le_left a b)

/-- A min-fold is bounded by every member. -/
theorem foldl_min_le_mem : ∀ (l : List ℚ) (a x : ℚ), x ∈ l → l.foldl min a ≤ x := by
  intro l
  induction l with
  | nil => intro a x hx; exact absurd hx (List.not_mem_nil x)
  | cons b t ih =>
    intro a x hx
    rw [List.foldl_cons]
    rcases List.mem_cons.mp hx with h | h
    · rw [h]
      exact le_trans (foldl_min_le_init t (min a b)) (min_le_right a b)
    · exact ih (min a b) x h

/-- The seed bounds a max-fold. -/
theorem init_le_foldl_max : ∀ (l : List ℚ) (a : ℚ), a ≤ l.foldl max a := by
  intro l
  induction l with
  | nil => intro a; exact le_refl a
  | cons b t ih =>
    intro a
    exact le_trans (le_max_left a b) (ih (max a b))

/-- Every member bounds a max-fold. -/
theorem mem_le_foldl_max : ∀ (l : List ℚ) (a x : ℚ), x ∈ l → x ≤ l.foldl max a := by
  intro l
  induction l with
  | nil => intro a x hx; exact absurd hx (List.not_mem_nil x)
  | cons b t ih =>
    intro a x hx
    rw [List.foldl_cons]
    rcases List.mem_cons.mp hx with h | h
    · rw [h]
      exact le_trans (le_max_right a b) (init_le_foldl_max t (max a b))
    · exact ih (max a b) x h

/-- `listMinQ` bounds every member. -/
theorem listMinQ_le_mem (l : List ℚ) (x : ℚ) (h : x ∈ l) : listMinQ l ≤ x := by
  cases l with
  | nil => exact absurd h (List.not_mem_nil x)
  | cons a t =>
    rw [listMinQ]
    rcases List.mem_cons.mp h with h2 | h2
    · exact h2 ▸ foldl_min_le_init t a
    · exact foldl_min_le_mem t a x h2

/-- Every member bounds `listMaxQ`. -/
theorem mem_le_listMaxQ (l : List ℚ) (x : ℚ) (h : x ∈ l) : x ≤ listMaxQ l := by
  cases l with
  | nil => exact absurd h (List.not_mem_nil x)
  | cons a t =>
    rw [listMaxQ]
    rcases List.mem_cons.mp h with h2 | h2
    · exact h2 ▸ init_le_foldl_max t a
    · exact mem_le_foldl_max t a x h2

/-- Rounding to four decimals preserves nonnegativity. -/
theorem roundTo4_nonneg (x : ℚ) (h : 0 ≤ x) : 0 ≤ roundTo4 x := by
  rw [roundTo4]
  apply div_nonneg _ (by norm_num)
  rw [round_eq]
  have h2 : (0:ℤ) ≤ ⌊x * 10000 + 1/2⌋ := Int.floor_nonneg.mpr (by linarith)
  exact_mod_cast h2

/-- Rounding to four decimals preserves the upper bound `1`. -/
theorem roundTo4_le_one (x : ℚ) (h : x ≤ 1) : roundTo4 x ≤ 1 := by
  rw [roundTo4, div_le_one (by norm_num), round_eq]
  have h2 : ⌊x * 10000 + 1/2⌋ ≤ ⌊(10000 : ℚ) + 1/2⌋ := Int.floor_mono (by linarith)
  have h3 : ⌊(10000 : ℚ) + 1/2⌋ = 10000 := by
    rw [Int.floor_eq_iff]
    norm_num
  rw [h3] at h2
  exact_mod_cast h2

/-- `insertByDesc` is Mathlib's `orderedInsert` for the flipped order. -/
theorem insertByDesc_eq_orderedInsert {α : Type} (key : α → ℚ) (x : α) :
    ∀ l : List α,
      insertByDesc key x l = List.orderedInsert (fun a b => key b ≤ key a) x l := by
  intro l
  induction l with
  | nil => rfl
  | cons y ys ih =>
    rw [insertByDesc, List.orderedInsert]
    by_cases h : key y ≤ key x
    · rw [if_pos h, if_pos h]
    · rw [if_neg h, if_neg h, ih]

/-- `sortByDesc` is Mathlib's insertion sort for the flipped order. -/
theorem sortByDesc_eq_insertionSort {α : Type} (key : α → ℚ) :
    ∀ l : List α,
      sortByDesc key l = List.insertionSort (fun a b => key b ≤ key a) l := by
  intro l
  induction l with
  | nil => rfl
  | cons x xs ih =>
    rw [sortByDesc, List.insertionSort, ih, insertByDesc_eq_orderedInsert]

/-- `sortByDesc` sorts non-increasingly by the key. -/
theorem sortByDesc_sorted {α : Type} (key : α → ℚ) (l : List α) :
    List.Sorted (fun a b => key b ≤ key a) (sortByDesc key l) := by
  rw [sortByDesc_eq_insertionSort]
  haveI h1 : IsTotal α (fun a b => key b ≤ key a) :=
    ⟨fun a b => le_total (key b) (key a)⟩
  haveI h2 : IsTrans α (fun a b => key b ≤ key a) :=
    ⟨fun a b c hab hbc => le_trans hbc hab⟩
  exact List.sorted_insertionSort _ l

/-- `sortByDesc` permutes its input. -/
theorem sortByDesc_perm {α : Type} (key : α → ℚ) (l : List α) :
    List.Perm (sortByDesc key l) l := by
  rw [sortByDesc_eq_insertionSort]
  exact List.perm_insertionSort _ l

/-- C7 (confirmed): on the RRF path with both result lists non-empty (ids
distinct and non-empty in each ranking, unfiltered), every accumulated raw
score is the claim's `Σ 1/(60+rank)` over the rankings containing the chunk;
every returned row's hybrid score is the min-max normalisation of that raw
score rounded to 4 decimals and lies in `[0,1]`; and the returned list is
sorted by hybrid score non-increasing, duplicate-free in chunk ids, and no
longer than `limit`. -/
theorem c7_rrf_fusion_normalized_sorted_nodup (st : GraphState) (ex : Nat → ℚ)
    (kw : List KWRow) (sem : List SemRow) (query : String) (limit : Nat)
    (wsem wkw : ℚ)
    (hq : ¬ stripStr query = "")
    (hkw : kw ≠ []) (hsem : sem ≠ [])
    (hkwnd : (kw.map (fun r => r.col0.id)).Nodup)
    (hsemnd : (sem.map (fun r => r.col0.id)).Nodup)
    (hkwne : ∀ r ∈ kw, r.col0.id ≠ "")
    (hsemne : ∀ r ∈ sem, r.col0.id ≠ "") :
    ∃ res, hybridSearchModel st ex true kw (Except.ok sem) query limit none none
        FusionMethod.rrf wsem wkw = Except.ok res ∧
      (∀ p ∈ (rrfAccum kw sem).1, p.2 = rrfSpecScore kw sem p.1) ∧
      (∀ r ∈ res,
        r.hybrid_score =
          roundTo4 ((rrfSpecScore kw sem r.chunk.id - rrfRawMin kw sem) /
            rrfRawRange kw sem) ∧
        0 ≤ r.hybrid_score ∧ r.hybrid_score ≤ 1) ∧
      List.Sorted (fun a b : FusedRow => b.hybrid_score ≤ a.hybrid_score) res ∧
      (res.map (fun r => r.chunk.id)).Nodup ∧
      res.length ≤ limit := by
  obtain ⟨hb1, hb2, hb3⟩ := rrfKwLoop_inv kw 1 [] [] (by simp) rfl (by simp)
  obtain ⟨hnd0, hkeys0, hdata0⟩ := rrfSemLoop_inv sem 1 _ _ hb1 hb2 hb3
  have hnd : ((rrfAccum kw sem).1.map Prod.fst).Nodup := hnd0
  have hkeys : (rrfAccum kw sem).1.map Prod.fst =
      (rrfAccum kw sem).2.map Prod.fst := hkeys0
  have hdata : ∀ p ∈ (rrfAccum kw sem).2, p.2.chunk.id = p.1 := hdata0
  have hspec : ∀ id, scoreOf (rrfAccum kw sem).1 id = rrfSpecScore kw sem id :=
    fun id => scoreOf_accum_eq_spec kw sem id hkwnd hsemnd hkwne hsemne
  have hvals : ∀ p ∈ (rrfAccum kw sem).1, p.2 = rrfSpecScore kw sem p.1 := by
    intro p hp
    have hl := alLookup_of_mem_nodup (rrfAccum kw sem).1 p hp hnd
    have h2 : scoreOf (rrfAccum kw sem).1 p.1 = p.2 := by
      rw [scoreOf, hl]
      rfl
    rw [← h2, hspec]
  have hAne : (rrfAccum kw sem).1 ≠ [] := by
    obtain ⟨r, rest, hkr⟩ := List.exists_cons_of_ne_nil hkw
    intro hnil
    have h0 : scoreOf (rrfAccum kw sem).1 r.col0.id = 0 := by
      rw [hnil]
      rfl
    rw [scoreOf_rrfAccum, hkr, List.map_cons] at h0
    have hpos : 0 < rankContribIds 1
        (r.col0.id :: rest.map (fun r => r.col0.id)) r.col0.id :=
      rankContribIds_head_pos r.col0.id _ 1 (hkwne r (by rw [hkr]; simp))
    have hnn := rankContribIds_nonneg r.col0.id (sem.map (fun r => r.col0.id)) 1
    linarith
  have hscores : rrfFusion kw sem (limit * 2) =
      (sortByDesc (fun r => r.hybrid_score)
        (((rrfAccum kw sem).1.map (fun e =>
            (e.1, (e.2 - rrfRawMin kw sem) / rrfRawRange kw sem))).map
          (fun e =>
            let d := (alLookup (rrfAccum kw sem).2 e.1).getD defaultRRFData
            FusedRow.mk d.chunk (roundTo4 e.2) d.kw d.sem))).take (limit * 2) := by
    simp only [rrfFusion]
    rw [if_pos hAne]
    rfl
  have hmodel : hybridSearchModel st ex true kw (Except.ok sem) query limit none
      none FusionMethod.rrf wsem wkw =
      Except.ok (((rrfFusion kw sem (limit * 2)).take limit).map stripRow) := by
    simp only [hybridSearchModel, hq, hsem, hkw, optListTruthy, if_false,
      ite_false]
    rfl
  refine ⟨((rrfFusion kw sem (limit * 2)).take limit).map stripRow, hmodel,
    hvals, ?_, ?_, ?_, ?_⟩
  · -- normalized score formula and bounds
    intro r hr
    obtain ⟨r1, hr1, hre⟩ := List.mem_map.mp hr
    have hr1F := List.mem_of_mem_take hr1
    rw [hscores] at hr1F
    have hr2 := List.mem_of_mem_take hr1F
    have hr3 := (List.Perm.mem_iff (sortByDesc_perm _ _)).mp hr2
    obtain ⟨e, he, hee⟩ := List.mem_map.mp hr3
    obtain ⟨e0, he0, he0e⟩ := List.mem_map.mp he
    subst hee
    subst he0e
    have hkey : e0.1 ∈ (rrfAccum kw sem).2.map Prod.fst := by
      rw [← hkeys]
      exact List.mem_map.mpr ⟨e0, he0, rfl⟩
    obtain ⟨pd, hpd, hpdk, hpdl⟩ := alLookup_mem_keys _ _ hkey
    have hdget : (alLookup (rrfAccum kw sem).2 e0.1).getD defaultRRFData = pd.2 := by
      rw [hpdl]
      rfl
    have hcid : pd.2.chunk.id = e0.1 := (hdata pd hpd).trans hpdk
    have hraw : e0.2 = rrfSpecScore kw sem e0.1 := hvals e0 he0
    have hmem2 : e0.2 ∈ (rrfAccum kw sem).1.map (fun e => e.2) :=
      List.mem_map.mpr ⟨e0, he0, rfl⟩
    have hmn : rrfRawMin kw sem ≤ e0.2 := by
      rw [rrfRawMin]
      exact listMinQ_le_mem _ _ hmem2
    have hmx : e0.2 ≤ rrfRawMax kw sem := by
      rw [rrfRawMax]
      exact mem_le_listMaxQ _ _ hmem2
    have hb01 : 0 ≤ (e0.2 - rrfRawMin kw sem) / rrfRawRange kw sem ∧
        (e0.2 - rrfRawMin kw sem) / rrfRawRange kw sem ≤ 1 := by
      by_cases hlt : rrfRawMin kw sem < rrfRawMax kw sem
      · rw [rrfRawRange, if_pos hlt]
        constructor
        · apply div_nonneg (by linarith) (by linarith)
        · rw [div_le_one (by linarith)]
          linarith
      · rw [rrfRawRange, if_neg hlt]
        have heq : e0.2 = rrfRawMin kw sem :=
          le_antisymm (hmx.trans (not_lt.mp hlt)) hmn
        rw [heq]
        norm_num
    rw [← hre]
    refine ⟨?_, ?_, ?_⟩
    · show roundTo4 ((e0.2 - rrfRawMin kw sem) / rrfRawRange kw sem) =
        roundTo4 ((rrfSpecScore kw sem
          ((alLookup (rrfAccum kw sem).2 e0.1).getD defaultRRFData).chunk.id -
          rrfRawMin kw sem) / rrfRawRange kw sem)
      rw [hdget, hcid, ← hraw]
    · show 0 ≤ roundTo4 ((e0.2 - rrfRawMin kw sem) / rrfRawRange kw sem)
      exact roundTo4_nonneg _ hb01.1
    · show roundTo4 ((e0.2 - rrfRawMin kw sem) / rrfRawRange kw sem) ≤ 1
      exact roundTo4_le_one _ hb01.2
  · -- sortedness
    have hs1 := sortByDesc_sorted (fun r : FusedRow => r.hybrid_score)
      (((rrfAccum kw sem).1.map (fun e =>
          (e.1, (e.2 - rrfRawMin kw sem) / rrfRawRange kw sem))).map
        (fun e =>
          let d := (alLookup (rrfAccum kw sem).2 e.1).getD defaultRRFData
          FusedRow.mk d.chunk (roundTo4 e.2) d.kw d.sem))
    have hs2 : List.Sorted (fun a b : FusedRow => b.hybrid_score ≤ a.hybrid_score)
        (rrfFusion kw sem (limit * 2)) := by
      rw [hscores]
      exact List.Pairwise.sublist (List.take_sublist _ _) hs1
    have hs3 : List.Sorted (fun a b : FusedRow => b.hybrid_score ≤ a.hybrid_score)
        ((rrfFusion kw sem (limit * 2)).take limit) :=
      List.Pairwise.sublist (List.take_sublist _ _) hs2
    exact List.Pairwise.map stripRow (fun a b h => h) hs3
  · -- distinct chunk ids
    have hids : (((rrfAccum kw sem).1.map (fun e =>
          (e.1, (e.2 - rrfRawMin kw sem) / rrfRawRange kw sem))).map
        (fun e =>
          let d := (alLookup (rrfAccum kw sem).2 e.1).getD defaultRRFData
          FusedRow.mk d.chunk (roundTo4 e.2) d.kw d.sem)).map
        (fun r => r.chunk.id) = (rrfAccum kw sem).1.map Prod.fst := by
      rw [List.map_map, List.map_map]
      apply List.map_congr_left
      intro e0 he0
      show ((alLookup (rrfAccum kw sem).2 e0.1).getD defaultRRFData).chunk.id = e0.1
      have hkey : e0.1 ∈ (rrfAccum kw sem).2.map Prod.fst := by
        rw [← hkeys]
        exact List.mem_map.mpr ⟨e0, he0, rfl⟩
      obtain ⟨pd, hpd, hpdk, hpdl⟩ := alLookup_mem_keys _ _ hkey
      rw [hpdl]
      exact (hdata pd hpd).trans hpdk
    have hnodupRES : ((((rrfAccum kw sem).1.map (fun e =>
          (e.1, (e.2 - rrfRawMin kw sem) / rrfRawRange kw sem))).map
        (fun e =>
          let d := (alLookup (rrfAccum kw sem).2 e.1).getD defaultRRFData
          FusedRow.mk d.chunk (roundTo4 e.2) d.kw d.sem)).map
        (fun r => r.chunk.id)).Nodup := by
      rw [hids]
      exact hnd
    have hperm := List.Perm.map (fun r : FusedRow => r.chunk.id)
      (sortByDesc_perm (fun r : FusedRow => r.hybrid_score)
        (((rrfAccum kw sem).1.map (fun e =>
            (e.1, (e.2 - rrfRawMin kw sem) / rrfRawRange kw sem))).map
          (fun e =>
            let d := (alLookup (rrfAccum kw sem).2 e.1).getD defaultRRFData
            FusedRow.mk d.chunk (roundTo4 e.2) d.kw d.sem)))
    have hnodupSort := (List.Perm.nodup_iff hperm).mpr hnodupRES
    rw [List.map_map]
    show (((rrfFusion kw sem (limit * 2)).take limit).map
      (fun r => r.chunk.id)).Nodup
    rw [List.map_take]
    apply List.Nodup.sublist (List.take_sublist _ _)
    rw [hscores, List.map_take]
    exact List.Nodup.sublist (List.take_sublist _ _) hnodupSort
  · -- length bound
    rw [List.length_map]
    exact List.length_take_le _ _

/-- C7 witness: the theorem applied to the concrete two-element rankings
(sharing chunk `b.md#b`), with `limit = 5`. -/
theorem c7_witness :
    (¬ stripStr "q" = "") ∧ exC7Kw ≠ [] ∧ exC7Sem ≠ [] ∧
      (exC7Kw.map (fun r => r.col0.id)).Nodup ∧
      (exC7Sem.map (fun r => r.col0.id)).Nodup ∧
      (∀ r ∈ exC7Kw, r.col0.id ≠ "") ∧ (∀ r ∈ exC7Sem, r.col0.id ≠ "") ∧
      (∃ res, hybridSearchModel graphEmpty (fun _ => 0) true exC7Kw
          (Except.ok exC7Sem) "q" 5 none none FusionMethod.rrf (1/2) (1/2) =
          Except.ok res ∧
        (∀ p ∈ (rrfAccum exC7Kw exC7Sem).1,
          p.2 = rrfSpecScore exC7Kw exC7Sem p.1) ∧
        (∀ r ∈ res,
          r.hybrid_score =
            roundTo4 ((rrfSpecScore exC7Kw exC7Sem r.chunk.id -
              rrfRawMin exC7Kw exC7Sem) / rrfRawRange exC7Kw exC7Sem) ∧
          0 ≤ r.hybrid_score ∧ r.hybrid_score ≤ 1) ∧
        List.Sorted (fun a b : FusedRow => b.hybrid_score ≤ a.hybrid_score) res ∧
        (res.map (fun r => r.chunk.id)).Nodup ∧
        res.length ≤ 5) :=
  ⟨by decide, by decide, by decide, by decide, by decide, by decide, by decide,
    c7_rrf_fusion_normalized_sorted_nodup graphEmpty (fun _ => 0) exC7Kw exC7Sem
      "q" 5 (1/2) (1/2) (by decide) (by decide) (by decide) (by decide)
      (by decide) (by decide) (by decide)⟩
